import Mathlib

/-!
Verification of the Go board engine in `gogame.py`.

The engine keeps an `N × N` board of numeric cell codes (`0` empty,
`1` black, `2` white), a `black_turn` flag and per-side prisoner
counters.  Its operations are `is_valid_move`, `get_stone_groups`,
`has_no_liberties` and the click handler that attempts a move.  The
presentation layer only observes the mutated state plus which of two
sounds was played (`ZOINK` on rejection, `CLICK` on acceptance), so the
click handler is embedded as a pure function returning the new state
together with the sound.
-/

/-- A board cell address `(col, row)`. -/
abbrev Cell := Nat × Nat

/-- A board is a square matrix accessed at `(col, row)`; the engine never
reads or writes cells outside `[0, n) × [0, n)`. -/
abbrev Board := Nat → Nat → Nat

/-- Stone colors; the source identifies them by the strings
`"black"` / `"white"`. -/
inductive Color where
  | black
  | white
deriving DecidableEq

/-- Source `color_code = 1 if color == "black" else 2`. -/
def colorCode : Color → Nat
  | Color.black => 1
  | Color.white => 2

/-- Orthogonal (4-directional) adjacency of two cells, the edge relation of
`nx.grid_graph`. -/
def adjacent (p q : Cell) : Prop :=
  (p.1 = q.1 ∧ (p.2 + 1 = q.2 ∨ q.2 + 1 = p.2)) ∨
  (p.2 = q.2 ∧ (p.1 + 1 = q.1 ∨ q.1 + 1 = p.1))

instance (p q : Cell) : Decidable (adjacent p q) := by
  unfold adjacent; infer_instance

/-- One step inside the grid graph restricted to the cells holding `code`:
move to an in-bounds orthogonal neighbor of that code. -/
def stepRel (n : Nat) (board : Board) (code : Nat) (p q : Cell) : Prop :=
  adjacent p q ∧ q.1 < n ∧ q.2 < n ∧ board q.1 q.2 = code

instance (n : Nat) (board : Board) (code : Nat) (p q : Cell) :
    Decidable (stepRel n board code p q) := by
  unfold stepRel; infer_instance

/-- Connectivity through same-code cells: the reflexive-transitive closure
of `stepRel`. -/
def conn (n : Nat) (board : Board) (code : Nat) : Cell → Cell → Prop :=
  Relation.ReflTransGen (stepRel n board code)

/-- The (up to four) orthogonal neighbors of a cell that exist in the
`Nat × Nat` quadrant. -/
def nbrs (p : Cell) : List Cell :=
  [(p.1 + 1, p.2), (p.1, p.2 + 1)] ++
    (if 0 < p.1 then [(p.1 - 1, p.2)] else []) ++
    (if 0 < p.2 then [(p.1, p.2 - 1)] else [])

/-- One breadth-first expansion of a cell set through `stepRel`. -/
def expandStep (n : Nat) (board : Board) (code : Nat) (s : Finset Cell) :
    Finset Cell :=
  s ∪ s.biUnion (fun p =>
    ((nbrs p).filter
      (fun q => decide (q.1 < n ∧ q.2 < n ∧ board q.1 q.2 = code))).toFinset)

/-- The connected component of `p` in the grid graph restricted to cells of
`code`: `n * n` expansions suffice to reach the closure. -/
def groupOf (n : Nat) (board : Board) (code : Nat) (p : Cell) : Finset Cell :=
  (expandStep n board code)^[n * n] {p}

/-- Row-major rank of a cell, used to pick a canonical representative of
each component. -/
def rank (n : Nat) (p : Cell) : Nat :=
  p.1 * n + p.2

/-- Predicate: `p` is the least cell (in row-major order) of its component. -/
def isRep (n : Nat) (board : Board) (code : Nat) (p : Cell) : Prop :=
  ∀ q ∈ groupOf n board code p, rank n p ≤ rank n q

instance (n : Nat) (board : Board) (code : Nat) (p : Cell) :
    Decidable (isRep n board code p) := by
  unfold isRep; infer_instance

/-- All board cells in row-major order. -/
def allCells (n : Nat) : List Cell :=
  (List.range n).flatMap (fun c => (List.range n).map (fun r => (c, r)))

/-- Source `get_stone_groups(board, color)`: the maximal 4-connected groups of the
given color's stones, as computed by `nx.connected_components` on the grid
graph with all other cells removed.  The source's component order is an
iteration artifact that nothing may depend on; here each component is
listed once, at its least cell in row-major order. -/
def get_stone_groups (n : Nat) (board : Board) (color : Color) :
    List (Finset Cell) :=
  (allCells n).filterMap (fun p =>
    if board p.1 p.2 = colorCode color ∧ isRep n board (colorCode color) p
    then some (groupOf n board (colorCode color) p) else none)

/-- Source `has_no_liberties(board, group)`: true iff no cell of the group passes
one of the source's four guarded neighbor-is-empty checks
(`x > 0 and board[x-1, y] == 0`, …, `y < board.shape[0] - 1 and
board[x, y+1] == 0`). -/
def has_no_liberties (n : Nat) (board : Board) (group : Finset Cell) : Bool :=
  decide (∀ p ∈ group,
    ¬ ((0 < p.1 ∧ board (p.1 - 1) p.2 = 0) ∨
       (0 < p.2 ∧ board p.1 (p.2 - 1) = 0) ∨
       (p.1 < n - 1 ∧ board (p.1 + 1) p.2 = 0) ∨
       (p.2 < n - 1 ∧ board p.1 (p.2 + 1) = 0)))

/-- Source `is_valid_move(col, row, board)`: bounds check then emptiness of the
target cell; the board size `n` stands for `board.shape[0]`. -/
def is_valid_move (col row : Int) (n : Nat) (board : Board) : Bool :=
  if col < 0 ∨ (n : Int) ≤ col then false
  else if row < 0 ∨ (n : Int) ≤ row then false
  else decide (board col.toNat row.toNat = 0)

/-- The engine state: `self.board`, `self.size`, `self.black_turn` and the
two entries of the `self.prisoners` defaultdict. -/
structure Game where
  size : Nat
  board : Board
  black_turn : Bool
  prisoners_black : Nat
  prisoners_white : Nat

/-- Read the prisoners counter of one side. -/
def prisonersOf (g : Game) : Color → Nat
  | Color.black => g.prisoners_black
  | Color.white => g.prisoners_white

/-- Write the prisoners counter of one side. -/
def setPrisoners (g : Game) (color : Color) (v : Nat) : Game :=
  match color with
  | Color.black => { g with prisoners_black := v }
  | Color.white => { g with prisoners_white := v }

/-- Source `Game.__init__(size)`: `np.zeros((size, size))` raises `ValueError` for
a negative dimension, so construction fails exactly on negative sizes; any
size `≥ 0` yields an all-zero board, black to move and empty prisoner
counters (`defaultdict(int)`). -/
def Game.init (size : Int) : Option Game :=
  if size < 0 then none
  else some { size := size.toNat, board := fun _ _ => 0, black_turn := true,
              prisoners_black := 0, prisoners_white := 0 }

/-- The two sounds the click handler can play: `ZOINK` on a rejected move,
`CLICK` on an accepted one. -/
inductive Sound where
  | zoink
  | click
deriving DecidableEq

/-- Source `self.board[col, row] = v`. -/
def updateBoard (board : Board) (c r v : Nat) : Board :=
  fun c2 r2 => if c2 = c ∧ r2 = r then v else board c2 r2

/-- Source `for i, j in group: self.board[i, j] = 0`. -/
def removeGroup (board : Board) (group : Finset Cell) : Board :=
  fun c r => if (c, r) ∈ group then 0 else board c r

/-- One iteration of the capture loop: state is the current board, the
`capture_happened` flag and the mover's prisoners counter. -/
def captureStep (n : Nat) (st : Board × Bool × Nat) (group : Finset Cell) :
    Board × Bool × Nat :=
  if has_no_liberties n st.1 group
  then (removeGroup st.1 group, true, st.2.2 + group.card)
  else st

/-- The source locates the freshly computed own-color group containing the
placed cell with a for-loop that breaks on the first hit; a loop that never
hits leaves the last group bound (and an empty group list leaves `None`,
modelled by `∅` — both fallbacks are unreachable because the placed cell
always lies in exactly one own-color group). -/
def ownGroupAt (n : Nat) (board : Board) (color : Color) (c r : Nat) :
    Finset Cell :=
  match (get_stone_groups n board color).find? (fun t => decide ((c, r) ∈ t)) with
  | some t => t
  | none => (get_stone_groups n board color).getLastD ∅

/-- Source `Game.handle_click` at grid coordinates `(col, row)` (the upstream
pixel-to-grid mapping is presentation glue): validate, tentatively place,
capture every liberty-less opposing group, otherwise reject a suicide by
reverting the placement, and on success flip the turn.  Returns the new
state and the sound played. -/
def handle_click (g : Game) (col row : Int) : Game × Sound :=
  if is_valid_move col row g.size g.board = false then (g, Sound.zoink) else
  let c := col.toNat
  let r := row.toNat
  let board1 := updateBoard g.board c r (if g.black_turn then 1 else 2)
  let self_color := if g.black_turn then Color.black else Color.white
  let other_color := if g.black_turn then Color.white else Color.black
  let st := (get_stone_groups g.size board1 other_color).foldl
    (captureStep g.size) (board1, false, prisonersOf g self_color)
  if st.2.1 = false ∧
      has_no_liberties g.size st.1 (ownGroupAt g.size st.1 self_color c r) = true
  then
    ({ setPrisoners g self_color st.2.2 with
        board := updateBoard st.1 c r 0 }, Sound.zoink)
  else
    ({ setPrisoners g self_color st.2.2 with
        board := st.1, black_turn := !g.black_turn }, Sound.click)

/-! ### Grid-graph component theory

`groupOf` iterates one breadth-first expansion `n * n` times; the lemmas
below show the result is exactly the `conn`-component of the starting
cell, and that these components partition the color's cells. -/

/-- The cells of one color inside the board. -/
def colorCells (n : Nat) (board : Board) (code : Nat) : Finset Cell :=
  ((Finset.range n) ×ˢ (Finset.range n)).filter
    (fun p => board p.1 p.2 = code)

/-- Connectivity staying inside a fixed cell set. -/
def connWithin (S : Finset Cell) : Cell → Cell → Prop :=
  Relation.ReflTransGen (fun a b => adjacent a b ∧ a ∈ S ∧ b ∈ S)

/-- The groups of `l` that have no liberties on `b`. -/
def capturedList (n : Nat) (b : Board) (l : List (Finset Cell)) :
    List (Finset Cell) :=
  l.filter (fun G => has_no_liberties n b G)

/-- Union of a list of cell sets. -/
def unionList (l : List (Finset Cell)) : Finset Cell :=
  l.foldr (fun G s => G ∪ s) ∅

/-- Pairwise separation used by the fold: two groups at distinct list
positions share no cells and no adjacency. -/
def SepGroups (G H : Finset Cell) : Prop :=
  ∀ x ∈ G, ∀ y ∈ H, ¬ adjacent x y ∧ x ≠ y

/-- Source `self_color = "black" if self.black_turn else "white"`. -/
def selfColor (g : Game) : Color :=
  if g.black_turn then Color.black else Color.white

/-- Source `other_color = "white" if self.black_turn else "black"`. -/
def otherColor (g : Game) : Color :=
  if g.black_turn then Color.white else Color.black

/-- The board right after the tentative placement. -/
def placedBoard (g : Game) (col row : Int) : Board :=
  updateBoard g.board col.toNat row.toNat (if g.black_turn then 1 else 2)

/-- The opposing groups computed on the tentatively placed board. -/
def oppGroups (g : Game) (col row : Int) : List (Finset Cell) :=
  get_stone_groups g.size (placedBoard g col row) (otherColor g)

/-- The opposing groups the capture loop removes. -/
def captGroups (g : Game) (col row : Int) : List (Finset Cell) :=
  capturedList g.size (placedBoard g col row) (oppGroups g col row)

/-- All cells of the captured groups. -/
def captCells (g : Game) (col row : Int) : Finset Cell :=
  unionList (captGroups g col row)

/-- The board after the capture loop. -/
def afterCaptureBoard (g : Game) (col row : Int) : Board :=
  removeGroup (placedBoard g col row) (captCells g col row)

/-- Total number of stones the capture loop removes. -/
def captGain (g : Game) (col row : Int) : Nat :=
  ((captGroups g col row).map Finset.card).sum

/-- The all-empty board. -/
def zeroBoard : Board := fun _ _ => 0

/-- Two vertically adjacent black stones on a 2×2 board. -/
def pairBoard : Board := fun c r =>
  if (c = 0 ∧ r = 0) ∨ (c = 0 ∧ r = 1) then 1 else 0

/-- A 2×2 game, black to move, black stone already at (0,0). -/
def occupiedGame : Game :=
  { size := 2, board := fun c r => if c = 0 ∧ r = 0 then 1 else 0,
    black_turn := true, prisoners_black := 0, prisoners_white := 0 }

/-- A 2×2 game, black to move; white at (0,0) has its last liberty at (0,1)
(black already at (1,0)). -/
def captureGame : Game :=
  { size := 2,
    board := fun c r =>
      if c = 0 ∧ r = 0 then 2 else if c = 1 ∧ r = 0 then 1 else 0,
    black_turn := true, prisoners_black := 0, prisoners_white := 0 }

/-- A 3×3 game, white to move; black surrounds the center, so white at (1,1)
is a suicide. -/
def suicideGame : Game :=
  { size := 3,
    board := fun c r =>
      if (c = 0 ∧ r = 1) ∨ (c = 1 ∧ r = 0) ∨ (c = 1 ∧ r = 2) ∨
         (c = 2 ∧ r = 1) then 1 else 0,
    black_turn := false, prisoners_black := 0, prisoners_white := 0 }

/-! ### The claims -/

/-- Every group of one color on the board has a liberty. -/
def NoDeadGroups (g : Game) : Prop :=
  ∀ color : Color, ∀ G ∈ get_stone_groups g.size g.board color,
    has_no_liberties g.size g.board G = false

/-- All in-bounds cells hold one of the three codes. -/
def CellValuesOK (g : Game) : Prop :=
  ∀ a b : Nat, a < g.size → b < g.size →
    g.board a b = 0 ∨ g.board a b = 1 ∨ g.board a b = 2

/-- The game states reachable from a constructed game by any sequence of
clicks. -/
inductive Reachable : Game → Prop where
  | init (size : Int) (g : Game) : Game.init size = some g → Reachable g
  | step (g : Game) (col row : Int) : Reachable g →
      Reachable (handle_click g col row).1

/-- The freshly constructed 2×2 game. -/
def freshGame : Game :=
  { size := 2, board := fun _ _ => 0, black_turn := true,
    prisoners_black := 0, prisoners_white := 0 }

/-! ### Properties -/

lemma mem_colorCells {n : Nat} {board : Board} {code : Nat} {p : Cell} :
    p ∈ colorCells n board code ↔
      p.1 < n ∧ p.2 < n ∧ board p.1 p.2 = code := by
  simp [colorCells, Finset.mem_filter, Finset.mem_product, and_assoc]

lemma card_colorCells_le (n : Nat) (board : Board) (code : Nat) :
    (colorCells n board code).card ≤ n * n := by
  calc (colorCells n board code).card
      ≤ ((Finset.range n) ×ˢ (Finset.range n)).card :=
        Finset.card_filter_le _ _
    _ = n * n := by simp [Finset.card_product]

lemma adjacent_symm {p q : Cell} (h : adjacent p q) : adjacent q p := by
  obtain ⟨a, b⟩ := p
  obtain ⟨c, d⟩ := q
  simp only [adjacent] at h ⊢
  omega

lemma mem_nbrs {p q : Cell} : q ∈ nbrs p ↔ adjacent p q := by
  obtain ⟨a, b⟩ := p
  obtain ⟨c, d⟩ := q
  by_cases ha : 0 < a <;> by_cases hb : 0 < b <;>
    simp only [nbrs, adjacent, ha, hb, if_true, if_false, List.append_nil,
      List.mem_append, List.mem_cons, List.not_mem_nil, or_false,
      Prod.mk.injEq] <;> omega

lemma subset_expandStep (n : Nat) (board : Board) (code : Nat)
    (s : Finset Cell) : s ⊆ expandStep n board code s :=
  Finset.subset_union_left

lemma mem_expandStep {n : Nat} {board : Board} {code : Nat}
    {s : Finset Cell} {q : Cell} :
    q ∈ expandStep n board code s ↔
      q ∈ s ∨ ∃ p ∈ s, stepRel n board code p q := by
  simp only [expandStep, Finset.mem_union, Finset.mem_biUnion,
    List.mem_toFinset, List.mem_filter, decide_eq_true_eq, stepRel, mem_nbrs]

lemma expandStep_subset_colorCells {n : Nat} {board : Board} {code : Nat}
    {s : Finset Cell} (hs : s ⊆ colorCells n board code) :
    expandStep n board code s ⊆ colorCells n board code := by
  intro q hq
  rcases mem_expandStep.1 hq with h | ⟨p, _, hstep⟩
  · exact hs h
  · exact mem_colorCells.2 ⟨hstep.2.1, hstep.2.2.1, hstep.2.2.2⟩

lemma iterate_subset_colorCells {n : Nat} {board : Board} {code : Nat}
    {p : Cell} (hp : p ∈ colorCells n board code) (k : Nat) :
    (expandStep n board code)^[k] {p} ⊆ colorCells n board code := by
  induction k with
  | zero => simpa using Finset.singleton_subset_iff.2 hp
  | succ k ih =>
      rw [Function.iterate_succ_apply']
      exact expandStep_subset_colorCells ih

lemma iterate_expand_stab (n : Nat) (board : Board) (code : Nat)
    (p : Cell) (k : Nat) :
    expandStep n board code ((expandStep n board code)^[k] {p}) =
        (expandStep n board code)^[k] {p} ∨
      k + 1 ≤ ((expandStep n board code)^[k] {p}).card := by
  induction k with
  | zero => right; simp
  | succ k ih =>
      by_cases hfix : expandStep n board code
          ((expandStep n board code)^[k] {p}) =
          (expandStep n board code)^[k] {p}
      · left
        rw [Function.iterate_succ_apply', hfix, hfix]
      · right
        have hcard : k + 1 ≤ ((expandStep n board code)^[k] {p}).card := by
          rcases ih with h | h
          · exact absurd h hfix
          · exact h
        have hss : (expandStep n board code)^[k] {p} ⊂
            (expandStep n board code)^[k + 1] {p} := by
          rw [Function.iterate_succ_apply']
          exact HasSubset.Subset.ssubset_of_ne
            (subset_expandStep n board code _) (fun h => hfix h.symm)
        have := Finset.card_lt_card hss
        omega

/-- At fuel `n * n` the expansion has stabilized. -/
lemma expand_groupOf_eq {n : Nat} {board : Board} {code : Nat} {p : Cell}
    (hp : p ∈ colorCells n board code) :
    expandStep n board code (groupOf n board code p) =
      groupOf n board code p := by
  rcases iterate_expand_stab n board code p (n * n) with h | h
  · exact h
  · have h1 : ((expandStep n board code)^[n * n] {p}).card ≤
        (colorCells n board code).card :=
      Finset.card_le_card (iterate_subset_colorCells hp (n * n))
    have h2 := card_colorCells_le n board code
    omega

lemma mem_iterate_self {n : Nat} {board : Board} {code : Nat} {p : Cell}
    (k : Nat) : p ∈ (expandStep n board code)^[k] {p} := by
  induction k with
  | zero => simp
  | succ k ih =>
      rw [Function.iterate_succ_apply']
      exact subset_expandStep n board code _ ih

lemma conn_of_mem_iterate {n : Nat} {board : Board} {code : Nat}
    {p q : Cell} {k : Nat}
    (h : q ∈ (expandStep n board code)^[k] {p}) : conn n board code p q := by
  induction k generalizing q with
  | zero =>
      simp only [Function.iterate_zero, id_eq, Finset.mem_singleton] at h
      exact h ▸ Relation.ReflTransGen.refl
  | succ k ih =>
      rw [Function.iterate_succ_apply'] at h
      rcases mem_expandStep.1 h with h | ⟨x, hx, hstep⟩
      · exact ih h
      · exact Relation.ReflTransGen.tail (ih hx) hstep

/-- The function `groupOf` computes exactly the `conn`-component of its base cell. -/
lemma mem_groupOf {n : Nat} {board : Board} {code : Nat} {p q : Cell}
    (hp : p ∈ colorCells n board code) :
    q ∈ groupOf n board code p ↔ conn n board code p q := by
  constructor
  · exact conn_of_mem_iterate
  · intro h
    induction h with
    | refl => exact mem_iterate_self (n * n)
    | tail _ hstep ih =>
        rename_i x q _
        have : q ∈ expandStep n board code (groupOf n board code p) :=
          mem_expandStep.2 (Or.inr ⟨x, ih, hstep⟩)
        rwa [expand_groupOf_eq hp] at this

lemma groupOf_subset_colorCells {n : Nat} {board : Board} {code : Nat}
    {p : Cell} (hp : p ∈ colorCells n board code) :
    groupOf n board code p ⊆ colorCells n board code :=
  iterate_subset_colorCells hp (n * n)

lemma mem_groupOf_self {n : Nat} {board : Board} {code : Nat} (p : Cell) :
    p ∈ groupOf n board code p :=
  mem_iterate_self (n * n)

lemma conn_mem {n : Nat} {board : Board} {code : Nat} {p q : Cell}
    (h : conn n board code p q) :
    q = p ∨ q ∈ colorCells n board code := by
  induction h with
  | refl => exact Or.inl rfl
  | tail _ hstep _ =>
      exact Or.inr (mem_colorCells.2 ⟨hstep.2.1, hstep.2.2.1, hstep.2.2.2⟩)

lemma conn_symm {n : Nat} {board : Board} {code : Nat} {p q : Cell}
    (hp : p ∈ colorCells n board code) (h : conn n board code p q) :
    conn n board code q p := by
  induction h with
  | refl => exact Relation.ReflTransGen.refl
  | tail hpx hstep ih =>
      rename_i x q
      have hx : x ∈ colorCells n board code := by
        rcases conn_mem hpx with rfl | hx
        · exact hp
        · exact hx
      obtain ⟨hx1, hx2, hx3⟩ := mem_colorCells.1 hx
      exact Relation.ReflTransGen.head
        ⟨adjacent_symm hstep.1, hx1, hx2, hx3⟩ ih

lemma groupOf_eq_of_mem {n : Nat} {board : Board} {code : Nat} {p q : Cell}
    (hp : p ∈ colorCells n board code) (hq : q ∈ groupOf n board code p) :
    groupOf n board code p = groupOf n board code q := by
  have hconn : conn n board code p q := (mem_groupOf hp).1 hq
  rcases conn_mem hconn with rfl | hqU
  · rfl
  · ext x
    rw [mem_groupOf hp, mem_groupOf hqU]
    constructor
    · intro h
      exact Relation.ReflTransGen.trans (conn_symm hp hconn) h
    · intro h
      exact Relation.ReflTransGen.trans hconn h

lemma groupOf_closed {n : Nat} {board : Board} {code : Nat} {p x y : Cell}
    (hp : p ∈ colorCells n board code) (hx : x ∈ groupOf n board code p)
    (hstep : stepRel n board code x y) : y ∈ groupOf n board code p :=
  (mem_groupOf hp).2 (Relation.ReflTransGen.tail ((mem_groupOf hp).1 hx) hstep)

lemma rank_inj {n : Nat} {p q : Cell} (hp : p.2 < n) (hq : q.2 < n)
    (h : rank n p = rank n q) : p = q := by
  obtain ⟨a, b⟩ := p
  obtain ⟨c, d⟩ := q
  simp only [rank] at h hp hq
  have hn : 0 < n := Nat.lt_of_le_of_lt (Nat.zero_le _) hp
  have h1 : a = c := by
    have hdiv : (a * n + b) / n = (c * n + d) / n := by rw [h]
    rwa [Nat.mul_comm a n, Nat.mul_comm c n, Nat.mul_add_div hn,
      Nat.mul_add_div hn, Nat.div_eq_of_lt hp, Nat.div_eq_of_lt hq,
      Nat.add_zero, Nat.add_zero] at hdiv
  subst h1
  have h2 : b = d := Nat.add_left_cancel h
  subst h2
  rfl

lemma mem_allCells {n : Nat} {p : Cell} :
    p ∈ allCells n ↔ p.1 < n ∧ p.2 < n := by
  obtain ⟨a, b⟩ := p
  simp [allCells, List.mem_flatMap, List.mem_map, List.mem_range,
    Prod.mk.injEq]

lemma mem_get_stone_groups {n : Nat} {board : Board} {color : Color}
    {G : Finset Cell} :
    G ∈ get_stone_groups n board color ↔
      ∃ p ∈ colorCells n board (colorCode color),
        isRep n board (colorCode color) p ∧
        G = groupOf n board (colorCode color) p := by
  simp only [get_stone_groups, List.mem_filterMap]
  constructor
  · rintro ⟨p, hp, hsome⟩
    by_cases h : board p.1 p.2 = colorCode color ∧
        isRep n board (colorCode color) p
    · rw [if_pos h] at hsome
      obtain ⟨hcode, hrep⟩ := h
      obtain ⟨h1, h2⟩ := mem_allCells.1 hp
      exact ⟨p, mem_colorCells.2 ⟨h1, h2, hcode⟩, hrep,
        (Option.some_inj.1 hsome).symm⟩
    · rw [if_neg h] at hsome
      exact absurd hsome (by simp)
  · rintro ⟨p, hpU, hrep, rfl⟩
    obtain ⟨h1, h2, hcode⟩ := mem_colorCells.1 hpU
    exact ⟨p, mem_allCells.2 ⟨h1, h2⟩, by rw [if_pos ⟨hcode, hrep⟩]⟩

/-- Every color cell lies in a listed group: the component's least cell is a
representative. -/
lemma exists_group_mem {n : Nat} {board : Board} {color : Color} {p : Cell}
    (hp : p ∈ colorCells n board (colorCode color)) :
    ∃ G ∈ get_stone_groups n board color, p ∈ G := by
  obtain ⟨m, hm, hmin⟩ := Finset.exists_min_image
    (groupOf n board (colorCode color) p) (rank n)
    ⟨p, mem_groupOf_self p⟩
  have hmU : m ∈ colorCells n board (colorCode color) :=
    groupOf_subset_colorCells hp hm
  have heq : groupOf n board (colorCode color) p =
      groupOf n board (colorCode color) m := groupOf_eq_of_mem hp hm
  refine ⟨groupOf n board (colorCode color) m, ?_, ?_⟩
  · refine mem_get_stone_groups.2 ⟨m, hmU, ?_, rfl⟩
    intro q hq
    exact hmin q (heq ▸ hq)
  · exact heq ▸ mem_groupOf_self p

/-- Every listed group consists of cells of the color. -/
lemma group_subset_colorCells {n : Nat} {board : Board} {color : Color}
    {G : Finset Cell} (hG : G ∈ get_stone_groups n board color) :
    G ⊆ colorCells n board (colorCode color) := by
  obtain ⟨p, hpU, _, rfl⟩ := mem_get_stone_groups.1 hG
  exact groupOf_subset_colorCells hpU

/-- A listed group is the component of each of its members. -/
lemma group_eq_groupOf_mem {n : Nat} {board : Board} {color : Color}
    {G : Finset Cell} (hG : G ∈ get_stone_groups n board color)
    {x : Cell} (hx : x ∈ G) : G = groupOf n board (colorCode color) x := by
  obtain ⟨p, hpU, _, rfl⟩ := mem_get_stone_groups.1 hG
  exact groupOf_eq_of_mem hpU hx

/-- Two listed groups sharing a cell are equal. -/
lemma group_eq_of_mem_mem {n : Nat} {board : Board} {color : Color}
    {G H : Finset Cell} (hG : G ∈ get_stone_groups n board color)
    (hH : H ∈ get_stone_groups n board color)
    {x : Cell} (hxG : x ∈ G) (hxH : x ∈ H) : G = H := by
  rw [group_eq_groupOf_mem hG hxG, ← group_eq_groupOf_mem hH hxH]

/-- A listed group is closed under same-color adjacency (maximality). -/
lemma group_closed {n : Nat} {board : Board} {color : Color}
    {G : Finset Cell} (hG : G ∈ get_stone_groups n board color)
    {x y : Cell} (hx : x ∈ G) (hadj : adjacent x y)
    (hy : y ∈ colorCells n board (colorCode color)) : y ∈ G := by
  obtain ⟨p, hpU, _, rfl⟩ := mem_get_stone_groups.1 hG
  obtain ⟨hy1, hy2, hy3⟩ := mem_colorCells.1 hy
  exact groupOf_closed hpU hx ⟨hadj, hy1, hy2, hy3⟩

lemma connWithin_symm {S : Finset Cell} {x y : Cell}
    (h : connWithin S x y) : connWithin S y x := by
  induction h with
  | refl => exact Relation.ReflTransGen.refl
  | tail _ hstep ih =>
      exact Relation.ReflTransGen.head
        ⟨adjacent_symm hstep.1, hstep.2.2, hstep.2.1⟩ ih

/-- Each listed group is internally 4-connected: a path between any two of
its cells stays inside the group. -/
lemma group_connWithin {n : Nat} {board : Board} {color : Color}
    {G : Finset Cell} (hG : G ∈ get_stone_groups n board color)
    {x y : Cell} (hx : x ∈ G) (hy : y ∈ G) : connWithin G x y := by
  obtain ⟨p, hpU, _, rfl⟩ := mem_get_stone_groups.1 hG
  have base : ∀ z, z ∈ groupOf n board (colorCode color) p →
      connWithin (groupOf n board (colorCode color) p) p z := by
    intro z hz
    have hconn : conn n board (colorCode color) p z := (mem_groupOf hpU).1 hz
    clear hz
    induction hconn with
    | refl => exact Relation.ReflTransGen.refl
    | tail hpx hstep ih =>
        rename_i w z
        have hw : w ∈ groupOf n board (colorCode color) p :=
          (mem_groupOf hpU).2 hpx
        have hz : z ∈ groupOf n board (colorCode color) p :=
          groupOf_closed hpU hw hstep
        exact Relation.ReflTransGen.tail ih ⟨hstep.1, hw, hz⟩
  exact Relation.ReflTransGen.trans (connWithin_symm (base x hx)) (base y hy)

/-! ### The capture loop

The capture loop folds `captureStep` over the opposing groups.  Distinct
groups of one color are never orthogonally adjacent, so removing one group
does not change another group's liberties; the fold therefore removes
exactly the groups that had no liberties on the post-placement board and
adds exactly their total size to the mover's counter. -/

lemma mem_unionList {l : List (Finset Cell)} {x : Cell} :
    x ∈ unionList l ↔ ∃ G ∈ l, x ∈ G := by
  induction l with
  | nil => simp [unionList]
  | cons G t ih =>
      simp [unionList, Finset.mem_union] at ih ⊢
      rw [ih]

lemma removeGroup_removeGroup (b : Board) (G H : Finset Cell) :
    removeGroup (removeGroup b G) H = removeGroup b (G ∪ H) := by
  funext c r
  by_cases h1 : (c, r) ∈ H <;> by_cases h2 : (c, r) ∈ G <;>
    simp [removeGroup, h1, h2]

lemma removeGroup_empty (b : Board) : removeGroup b ∅ = b := by
  funext c r
  simp [removeGroup]

lemma adj_left {p : Cell} (h : 0 < p.1) : adjacent p (p.1 - 1, p.2) :=
  Or.inr ⟨rfl, Or.inr (by omega)⟩

lemma adj_up {p : Cell} (h : 0 < p.2) : adjacent p (p.1, p.2 - 1) :=
  Or.inl ⟨rfl, Or.inr (by omega)⟩

lemma adj_right (p : Cell) : adjacent p (p.1 + 1, p.2) :=
  Or.inr ⟨rfl, Or.inl rfl⟩

lemma adj_down (p : Cell) : adjacent p (p.1, p.2 + 1) :=
  Or.inl ⟨rfl, Or.inl rfl⟩

/-- The liberty check only reads the board at cells adjacent to the group,
so two boards agreeing there give the same answer. -/
lemma has_no_liberties_congr {n : Nat} {b b0 : Board} {G : Finset Cell}
    (h : ∀ p ∈ G, ∀ q : Cell, adjacent p q → b q.1 q.2 = b0 q.1 q.2) :
    has_no_liberties n b G = has_no_liberties n b0 G := by
  unfold has_no_liberties
  rw [decide_eq_decide]
  apply forall_congr'
  intro p
  apply imp_congr_right
  intro hp
  apply not_congr
  constructor <;> rintro (⟨h1, h2⟩ | ⟨h1, h2⟩ | ⟨h1, h2⟩ | ⟨h1, h2⟩)
  · exact Or.inl ⟨h1, ((h p hp _ (adj_left h1)).symm.trans h2)⟩
  · exact Or.inr (Or.inl ⟨h1, ((h p hp _ (adj_up h1)).symm.trans h2)⟩)
  · exact Or.inr (Or.inr (Or.inl ⟨h1, ((h p hp _ (adj_right p)).symm.trans h2)⟩))
  · exact Or.inr (Or.inr (Or.inr ⟨h1, ((h p hp _ (adj_down p)).symm.trans h2)⟩))
  · exact Or.inl ⟨h1, ((h p hp _ (adj_left h1)).trans h2)⟩
  · exact Or.inr (Or.inl ⟨h1, ((h p hp _ (adj_up h1)).trans h2)⟩)
  · exact Or.inr (Or.inr (Or.inl ⟨h1, ((h p hp _ (adj_right p)).trans h2)⟩))
  · exact Or.inr (Or.inr (Or.inr ⟨h1, ((h p hp _ (adj_down p)).trans h2)⟩))

/-- Characterization of the capture fold from any start state whose board
agrees with `b0` on all groups and their neighborhoods. -/
lemma foldl_captureStep_eq (n : Nat) (b0 : Board) :
    ∀ (l : List (Finset Cell)) (b : Board) (f : Bool) (k : Nat),
    List.Pairwise SepGroups l →
    (∀ G ∈ l, ∀ p ∈ G, ∀ q : Cell, adjacent p q → b q.1 q.2 = b0 q.1 q.2) →
    (∀ G ∈ l, ∀ p ∈ G, b p.1 p.2 = b0 p.1 p.2) →
    List.foldl (captureStep n) (b, f, k) l =
      (removeGroup b (unionList (capturedList n b0 l)),
       f || !(capturedList n b0 l).isEmpty,
       k + ((capturedList n b0 l).map Finset.card).sum) := by
  intro l
  induction l with
  | nil =>
      intro b f k _ _ _
      simp [capturedList, unionList, removeGroup_empty]
  | cons G t ih =>
      intro b f k hpair hadjagree hagree
      have hGagree : ∀ p ∈ G, ∀ q : Cell, adjacent p q →
          b q.1 q.2 = b0 q.1 q.2 := hadjagree G (List.mem_cons_self G t)
      have hlib : has_no_liberties n b G = has_no_liberties n b0 G :=
        has_no_liberties_congr hGagree
      rw [List.foldl_cons]
      by_cases hcap : has_no_liberties n b0 G = true
      · have hstep : captureStep n (b, f, k) G =
            (removeGroup b G, true, k + G.card) := by
          unfold captureStep
          rw [show ((b, f, k) : Board × Bool × Nat).1 = b from rfl, hlib,
            if_pos hcap]
        rw [hstep]
        have hsep : ∀ H ∈ t, SepGroups G H :=
          fun H hH => List.rel_of_pairwise_cons hpair hH
        have hadj' : ∀ H ∈ t, ∀ p ∈ H, ∀ q : Cell, adjacent p q →
            removeGroup b G q.1 q.2 = b0 q.1 q.2 := by
          intro H hH p hp q hq
          have hqG : (q.1, q.2) ∉ G := by
            intro hmem
            have := (hsep H hH (q.1, q.2) hmem p hp).1
            exact this (adjacent_symm hq)
          rw [removeGroup]
          simp only [hqG, if_false]
          exact hadjagree H (List.mem_cons_of_mem G hH) p hp q hq
        have hcell' : ∀ H ∈ t, ∀ p ∈ H,
            removeGroup b G p.1 p.2 = b0 p.1 p.2 := by
          intro H hH p hp
          have hpG : (p.1, p.2) ∉ G := by
            intro hmem
            exact (hsep H hH (p.1, p.2) hmem p hp).2 rfl
          rw [removeGroup]
          simp only [hpG, if_false]
          exact hagree H (List.mem_cons_of_mem G hH) p hp
        rw [ih (removeGroup b G) true (k + G.card) hpair.of_cons hadj' hcell']
        have hfilter : capturedList n b0 (G :: t) =
            G :: capturedList n b0 t := by
          simp [capturedList, List.filter_cons, hcap]
        rw [hfilter, removeGroup_removeGroup]
        have hu : unionList (G :: capturedList n b0 t) =
            G ∪ unionList (capturedList n b0 t) := rfl
        rw [hu]
        simp only [List.isEmpty_cons, List.map_cons, List.sum_cons,
          Bool.true_or, Bool.or_true, Bool.not_false, Prod.mk.injEq]
        exact ⟨trivial, trivial, by omega⟩
      · have hcap' : has_no_liberties n b0 G = false := by
          revert hcap
          cases has_no_liberties n b0 G <;> simp
        have hstep : captureStep n (b, f, k) G = (b, f, k) := by
          unfold captureStep
          rw [show ((b, f, k) : Board × Bool × Nat).1 = b from rfl, hlib,
            hcap']
          simp
        rw [hstep]
        have hadj' := fun H hH => hadjagree H (List.mem_cons_of_mem G hH)
        have hcell' := fun H hH => hagree H (List.mem_cons_of_mem G hH)
        rw [ih b f k hpair.of_cons hadj' hcell']
        have hfilter : capturedList n b0 (G :: t) = capturedList n b0 t := by
          simp [capturedList, List.filter_cons, hcap']
        rw [hfilter]

lemma allCells_nodup (n : Nat) : (allCells n).Nodup := by
  unfold allCells
  rw [List.nodup_flatMap]
  constructor
  · intro c hc
    exact (List.nodup_range n).map
      (fun r r' h => by simpa using h)
  · refine (List.nodup_range n).imp_of_mem ?_
    intro c c' hc hc' hne
    intro a ha ha'
    simp only [List.mem_map, List.mem_range] at ha ha'
    obtain ⟨r, hr, rfl⟩ := ha
    obtain ⟨r', hr', heq⟩ := ha'
    exact hne (congrArg Prod.fst heq).symm

lemma rep_unique {n : Nat} {board : Board} {code : Nat} {p q : Cell}
    (h2 : p.2 < n) (h2' : q.2 < n)
    (hrep : isRep n board code p) (hrep' : isRep n board code q)
    (heq : groupOf n board code p = groupOf n board code q) : p = q := by
  have hle : rank n p ≤ rank n q := hrep q (by rw [heq]; exact mem_groupOf_self q)
  have hge : rank n q ≤ rank n p :=
    hrep' p (by rw [← heq]; exact mem_groupOf_self p)
  exact rank_inj h2 h2' (Nat.le_antisymm hle hge)

/-- Groups at distinct list positions are disjoint and non-adjacent. -/
lemma sep_get_stone_groups (n : Nat) (board : Board) (color : Color) :
    List.Pairwise SepGroups (get_stone_groups n board color) := by
  unfold get_stone_groups
  rw [List.pairwise_filterMap]
  refine (allCells_nodup n).imp_of_mem ?_
  intro p p' hp hp' hne G hG G' hG'
  rw [Option.mem_def] at hG hG'
  by_cases hc : board p.1 p.2 = colorCode color ∧
      isRep n board (colorCode color) p
  case neg => rw [if_neg hc] at hG; exact absurd hG (by simp)
  by_cases hc' : board p'.1 p'.2 = colorCode color ∧
      isRep n board (colorCode color) p'
  case neg => rw [if_neg hc'] at hG'; exact absurd hG' (by simp)
  rw [if_pos hc] at hG
  rw [if_pos hc'] at hG'
  obtain ⟨hb1, hb2⟩ := mem_allCells.1 hp
  obtain ⟨hb1', hb2'⟩ := mem_allCells.1 hp'
  have hpU : p ∈ colorCells n board (colorCode color) :=
    mem_colorCells.2 ⟨hb1, hb2, hc.1⟩
  have hpU' : p' ∈ colorCells n board (colorCode color) :=
    mem_colorCells.2 ⟨hb1', hb2', hc'.1⟩
  have hGx : G = groupOf n board (colorCode color) p :=
    (Option.some_inj.1 hG).symm
  have hGx' : G' = groupOf n board (colorCode color) p' :=
    (Option.some_inj.1 hG').symm
  subst hGx hGx'
  have key : ∀ y : Cell, y ∈ groupOf n board (colorCode color) p →
      y ∈ groupOf n board (colorCode color) p' → False := by
    intro y hy hy'
    exact hne (rep_unique hb2 hb2' hc.2 hc'.2
      ((groupOf_eq_of_mem hpU hy).trans (groupOf_eq_of_mem hpU' hy').symm))
  intro x hx y hy
  constructor
  · intro hadj
    have hyU : y ∈ colorCells n board (colorCode color) :=
      groupOf_subset_colorCells hpU' hy
    obtain ⟨hy1, hy2, hy3⟩ := mem_colorCells.1 hyU
    exact key y (groupOf_closed hpU hx ⟨hadj, hy1, hy2, hy3⟩) hy
  · rintro rfl
    exact key x hx hy

/-- The placed cell's freshly computed own-color group is found by the
source's loop: `ownGroupAt` is a listed group containing the cell. -/
lemma ownGroupAt_spec {n : Nat} {board : Board} {color : Color} {c r : Nat}
    (h : ((c, r) : Cell) ∈ colorCells n board (colorCode color)) :
    ownGroupAt n board color c r ∈ get_stone_groups n board color ∧
      ((c, r) : Cell) ∈ ownGroupAt n board color c r := by
  obtain ⟨G, hG, hcG⟩ := exists_group_mem h
  have hsome : ((get_stone_groups n board color).find?
      (fun t => decide ((c, r) ∈ t))).isSome := by
    rw [List.find?_isSome]
    exact ⟨G, hG, by simpa using hcG⟩
  obtain ⟨a, ha⟩ := Option.isSome_iff_exists.1 hsome
  unfold ownGroupAt
  rw [ha]
  exact ⟨List.mem_of_find?_eq_some ha,
    by simpa using List.find?_some ha⟩

/-! ### Structure of `handle_click` -/

lemma colorCode_selfColor (g : Game) :
    colorCode (selfColor g) = if g.black_turn then 1 else 2 := by
  cases hb : g.black_turn <;> simp [selfColor, colorCode, hb]

lemma colorCode_self_ne_other (g : Game) :
    colorCode (selfColor g) ≠ colorCode (otherColor g) := by
  cases hb : g.black_turn <;> simp [selfColor, otherColor, colorCode, hb]

lemma setPrisoners_black_turn (g : Game) (color : Color) (v : Nat) :
    (setPrisoners g color v).black_turn = g.black_turn := by
  cases color <;> rfl

lemma setPrisoners_size (g : Game) (color : Color) (v : Nat) :
    (setPrisoners g color v).size = g.size := by
  cases color <;> rfl

lemma prisonersOf_setPrisoners (g : Game) (color : Color) (v : Nat) :
    prisonersOf (setPrisoners g color v) color = v := by
  cases color <;> rfl

lemma setPrisoners_self (g : Game) (color : Color) :
    setPrisoners g color (prisonersOf g color) = g := by
  cases color <;> rfl

/-- An invalid click is rejected immediately: zoink, state untouched. -/
lemma handle_click_invalid {g : Game} {col row : Int}
    (h : is_valid_move col row g.size g.board = false) :
    handle_click g col row = (g, Sound.zoink) := by
  unfold handle_click
  rw [h]
  simp

/-- A valid click runs the capture fold and then either reverts a suicide
or commits; this names every intermediate quantity. -/
lemma handle_click_valid {g : Game} {col row : Int}
    (hv : is_valid_move col row g.size g.board = true) :
    handle_click g col row =
      if (!(captGroups g col row).isEmpty) = false ∧
          has_no_liberties g.size (afterCaptureBoard g col row)
            (ownGroupAt g.size (afterCaptureBoard g col row) (selfColor g)
              col.toNat row.toNat) = true
      then ({ setPrisoners g (selfColor g)
                (prisonersOf g (selfColor g) + captGain g col row) with
              board := updateBoard (afterCaptureBoard g col row)
                col.toNat row.toNat 0 }, Sound.zoink)
      else ({ setPrisoners g (selfColor g)
                (prisonersOf g (selfColor g) + captGain g col row) with
              board := afterCaptureBoard g col row,
              black_turn := !g.black_turn }, Sound.click) := by
  unfold handle_click
  rw [hv]
  have hfold := foldl_captureStep_eq g.size (placedBoard g col row)
    (oppGroups g col row) (placedBoard g col row) false
    (prisonersOf g (selfColor g))
    (sep_get_stone_groups g.size (placedBoard g col row) (otherColor g))
    (fun _ _ _ _ _ _ => rfl) (fun _ _ _ _ => rfl)
  simp only [Bool.false_or] at hfold
  show (if true = false then _ else _) = _
  rw [if_neg (fun h => Bool.noConfusion h)]
  show (let c := col.toNat; let r := row.toNat; _ : Game × Sound) = _
  simp only [selfColor, otherColor, placedBoard, oppGroups, captGroups,
    captCells, afterCaptureBoard, captGain] at hfold ⊢
  rw [hfold]

lemma is_valid_move_iff {col row : Int} {n : Nat} {board : Board} :
    is_valid_move col row n board = true ↔
      0 ≤ col ∧ col < (n : Int) ∧ 0 ≤ row ∧ row < (n : Int) ∧
      board col.toNat row.toNat = 0 := by
  unfold is_valid_move
  split_ifs with h1 h2
  · simp only [Bool.false_eq_true, false_iff]
    rintro ⟨a, b, -, -, -⟩
    omega
  · simp only [Bool.false_eq_true, false_iff]
    rintro ⟨-, -, a, b, -⟩
    omega
  · rw [decide_eq_true_eq]
    constructor
    · intro h
      exact ⟨by omega, by omega, by omega, by omega, h⟩
    · rintro ⟨-, -, -, -, h⟩
      exact h

lemma bool_not_eq_false {b : Bool} : ((!b) = false) ↔ b = true := by
  cases b <;> simp

/-- A capture-less suicide is reverted entirely: the handler returns the
original state with the zoink sound. -/
lemma handle_click_of_suicide {g : Game} {col row : Int}
    (hv : is_valid_move col row g.size g.board = true)
    (hempty : (captGroups g col row).isEmpty = true)
    (hlib : has_no_liberties g.size (afterCaptureBoard g col row)
      (ownGroupAt g.size (afterCaptureBoard g col row) (selfColor g)
        col.toNat row.toNat) = true) :
    handle_click g col row = (g, Sound.zoink) := by
  rw [handle_click_valid hv, if_pos ⟨bool_not_eq_false.2 hempty, hlib⟩]
  have hnil : captGroups g col row = [] := by
    cases hl : captGroups g col row with
    | nil => rfl
    | cons a t => rw [hl] at hempty; exact absurd hempty (by simp)
  have hgain : captGain g col row = 0 := by
    simp [captGain, hnil]
  have hacb : afterCaptureBoard g col row = placedBoard g col row := by
    unfold afterCaptureBoard captCells
    rw [hnil]
    exact removeGroup_empty _
  have hboard : updateBoard (afterCaptureBoard g col row)
      col.toNat row.toNat 0 = g.board := by
    rw [hacb]
    funext a b
    unfold updateBoard placedBoard updateBoard
    by_cases h : a = col.toNat ∧ b = row.toNat
    · rw [if_pos h]
      obtain ⟨rfl, rfl⟩ := h
      exact ((is_valid_move_iff).1 hv).2.2.2.2.symm
    · rw [if_neg h, if_neg h]
  rw [hgain, Nat.add_zero, setPrisoners_self, hboard]

/-- The handler plays zoink exactly on the rejected moves: invalid target
or capture-less suicide. -/
lemma handle_click_zoink_iff {g : Game} {col row : Int} :
    (handle_click g col row).2 = Sound.zoink ↔
      (is_valid_move col row g.size g.board = false ∨
        (is_valid_move col row g.size g.board = true ∧
          (captGroups g col row).isEmpty = true ∧
          has_no_liberties g.size (afterCaptureBoard g col row)
            (ownGroupAt g.size (afterCaptureBoard g col row) (selfColor g)
              col.toNat row.toNat) = true)) := by
  cases hv : is_valid_move col row g.size g.board with
  | false =>
      rw [handle_click_invalid hv]
      simp
  | true =>
      rw [handle_click_valid hv]
      by_cases hcond : (!(captGroups g col row).isEmpty) = false ∧
          has_no_liberties g.size (afterCaptureBoard g col row)
            (ownGroupAt g.size (afterCaptureBoard g col row) (selfColor g)
              col.toNat row.toNat) = true
      · rw [if_pos hcond]
        constructor
        · intro _
          exact Or.inr ⟨rfl, bool_not_eq_false.1 hcond.1, hcond.2⟩
        · intro _
          rfl
      · rw [if_neg hcond]
        constructor
        · intro h
          exact absurd h (by simp)
        · rintro (h | ⟨-, hempty, hlib⟩)
          · exact Bool.noConfusion h
          · exact absurd ⟨bool_not_eq_false.2 hempty, hlib⟩ hcond

/-- Every rejected move leaves the state untouched. -/
lemma handle_click_rejected_state {g : Game} {col row : Int}
    (hz : (handle_click g col row).2 = Sound.zoink) :
    (handle_click g col row).1 = g := by
  rcases handle_click_zoink_iff.1 hz with h | ⟨hv, hempty, hlib⟩
  · rw [handle_click_invalid h]
  · rw [handle_click_of_suicide hv hempty hlib]

/-- A move that captures (or survives the liberty check) commits: board and
prisoners as mutated, turn flipped, click sound. -/
lemma handle_click_commit {g : Game} {col row : Int}
    (hv : is_valid_move col row g.size g.board = true)
    (hcond : ¬((!(captGroups g col row).isEmpty) = false ∧
      has_no_liberties g.size (afterCaptureBoard g col row)
        (ownGroupAt g.size (afterCaptureBoard g col row) (selfColor g)
          col.toNat row.toNat) = true)) :
    handle_click g col row =
      ({ setPrisoners g (selfColor g)
          (prisonersOf g (selfColor g) + captGain g col row) with
        board := afterCaptureBoard g col row,
        black_turn := !g.black_turn }, Sound.click) := by
  rw [handle_click_valid hv, if_neg hcond]

lemma captGroups_isEmpty_false {g : Game} {col row : Int}
    (hcap : ∃ G ∈ oppGroups g col row,
      has_no_liberties g.size (placedBoard g col row) G = true) :
    (captGroups g col row).isEmpty = false := by
  obtain ⟨G, hG, hnl⟩ := hcap
  have hmem : G ∈ captGroups g col row :=
    List.mem_filter.2 ⟨hG, hnl⟩
  cases h : captGroups g col row with
  | nil => rw [h] at hmem; exact absurd hmem (by simp)
  | cons a t => rfl

lemma mem_captGroups_iff {g : Game} {col row : Int} {G : Finset Cell} :
    G ∈ captGroups g col row ↔ G ∈ oppGroups g col row ∧
      has_no_liberties g.size (placedBoard g col row) G = true :=
  List.mem_filter

lemma placedBoard_placed (g : Game) (col row : Int) :
    placedBoard g col row col.toNat row.toNat =
      (if g.black_turn then 1 else 2) := by
  unfold placedBoard updateBoard
  rw [if_pos ⟨rfl, rfl⟩]

lemma placedBoard_other {g : Game} {col row : Int} {a b : Nat}
    (h : ¬(a = col.toNat ∧ b = row.toNat)) :
    placedBoard g col row a b = g.board a b := by
  unfold placedBoard updateBoard
  rw [if_neg h]

lemma captCells_subset {g : Game} {col row : Int} :
    captCells g col row ⊆
      colorCells g.size (placedBoard g col row)
        (colorCode (otherColor g)) := by
  intro p hp
  obtain ⟨G, hG, hpG⟩ := mem_unionList.1 hp
  exact group_subset_colorCells
    (List.mem_of_mem_filter hG) hpG

lemma placed_not_in_captCells (g : Game) (col row : Int) :
    (col.toNat, row.toNat) ∉ captCells g col row := by
  intro hmem
  have h1 := (mem_colorCells.1 (captCells_subset hmem)).2.2
  rw [show ((col.toNat, row.toNat) : Cell).1 = col.toNat from rfl,
    show ((col.toNat, row.toNat) : Cell).2 = row.toNat from rfl,
    placedBoard_placed, ← colorCode_selfColor] at h1
  exact colorCode_self_ne_other g h1

lemma afterCaptureBoard_mem {g : Game} {col row : Int} {p : Cell}
    (hp : p ∈ captCells g col row) :
    afterCaptureBoard g col row p.1 p.2 = 0 := by
  unfold afterCaptureBoard removeGroup
  rw [if_pos hp]

lemma afterCaptureBoard_not_mem {g : Game} {col row : Int} {p : Cell}
    (hp : p ∉ captCells g col row) :
    afterCaptureBoard g col row p.1 p.2 = placedBoard g col row p.1 p.2 := by
  unfold afterCaptureBoard removeGroup
  rw [if_neg hp]

lemma prisonersOf_commit (g : Game) (color : Color) (v : Nat) (B : Board)
    (t : Bool) :
    prisonersOf { setPrisoners g color v with
      board := B, black_turn := t } color = v := by
  cases color <;> rfl

/-- A cell passes one of the four source liberty checks iff it has an
in-bounds orthogonally adjacent empty cell. -/
lemma cell_liberty_iff {n : Nat} {board : Board} {a b : Nat}
    (ha : a < n) (hb : b < n) :
    ((0 < a ∧ board (a - 1) b = 0) ∨ (0 < b ∧ board a (b - 1) = 0) ∨
     (a < n - 1 ∧ board (a + 1) b = 0) ∨ (b < n - 1 ∧ board a (b + 1) = 0)) ↔
      ∃ q : Cell, adjacent (a, b) q ∧ q.1 < n ∧ q.2 < n ∧
        board q.1 q.2 = 0 := by
  constructor
  · rintro (⟨h1, h2⟩ | ⟨h1, h2⟩ | ⟨h1, h2⟩ | ⟨h1, h2⟩)
    · exact ⟨(a - 1, b), Or.inr ⟨rfl, Or.inr (by omega)⟩, by omega, hb, h2⟩
    · exact ⟨(a, b - 1), Or.inl ⟨rfl, Or.inr (by omega)⟩, ha, by omega, h2⟩
    · exact ⟨(a + 1, b), Or.inr ⟨rfl, Or.inl rfl⟩, by omega, hb, h2⟩
    · exact ⟨(a, b + 1), Or.inl ⟨rfl, Or.inl rfl⟩, ha, by omega, h2⟩
  · rintro ⟨⟨c, d⟩, hadj, h1, h2, h0⟩
    rcases hadj with ⟨he, hd | hd⟩ | ⟨he, hc | hc⟩
    · subst he
      have : d = b + 1 := by omega
      subst this
      exact Or.inr (Or.inr (Or.inr ⟨by omega, h0⟩))
    · subst he
      have : d = b - 1 := by omega
      subst this
      exact Or.inr (Or.inl ⟨by omega, h0⟩)
    · subst he
      have : c = a + 1 := by omega
      subst this
      exact Or.inr (Or.inr (Or.inl ⟨by omega, h0⟩))
    · subst he
      have : c = a - 1 := by omega
      subst this
      exact Or.inl ⟨by omega, h0⟩

/-! ### Concrete boards and games used as witnesses -/

/-- C6: `is_valid_move` returns false for a target outside `[0, N)` in
either coordinate and for an occupied target cell, and true in all other
cases; it does not itself account for suicide. -/
theorem is_valid_move_bounds_and_occupancy (col row : Int) (n : Nat)
    (board : Board) :
    is_valid_move col row n board = true ↔
      0 ≤ col ∧ col < (n : Int) ∧ 0 ≤ row ∧ row < (n : Int) ∧
      board col.toNat row.toNat = 0 :=
  is_valid_move_iff

/-- C5: `has_no_liberties` is true iff no cell of the group has an
orthogonally adjacent in-bounds cell whose state is empty; edge and corner
cells simply have fewer neighbors, an off-board position never counts. -/
theorem has_no_liberties_iff_no_adjacent_empty (n : Nat) (board : Board)
    (group : Finset Cell) (hb : ∀ p ∈ group, p.1 < n ∧ p.2 < n) :
    has_no_liberties n board group = true ↔
      ∀ p ∈ group, ∀ q : Cell, adjacent p q → q.1 < n → q.2 < n →
        board q.1 q.2 ≠ 0 := by
  unfold has_no_liberties
  rw [decide_eq_true_eq]
  constructor
  · intro h p hp q hadj h1 h2 h0
    obtain ⟨ha, hb2⟩ := hb p hp
    exact h p hp ((cell_liberty_iff ha hb2).2 ⟨q, hadj, h1, h2, h0⟩)
  · intro h p hp hdisj
    obtain ⟨ha, hb2⟩ := hb p hp
    obtain ⟨q, hadj, h1, h2, h0⟩ := (cell_liberty_iff ha hb2).1 hdisj
    exact h p hp q hadj h1 h2 h0

/-- C5 witness: the single stone at the center of an empty 3×3 board. -/
theorem has_no_liberties_iff_no_adjacent_empty_witness :
    (∀ p ∈ ({(1, 1)} : Finset Cell), p.1 < 3 ∧ p.2 < 3) ∧
    (has_no_liberties 3 zeroBoard {(1, 1)} = true ↔
      ∀ p ∈ ({(1, 1)} : Finset Cell), ∀ q : Cell, adjacent p q → q.1 < 3 →
        q.2 < 3 → zeroBoard q.1 q.2 ≠ 0) :=
  ⟨by decide,
   has_no_liberties_iff_no_adjacent_empty 3 zeroBoard {(1, 1)} (by decide)⟩

/-- C9 counterexample: the claim says construction with non-positive grid
size fails fast, but size 0 constructs successfully. -/
theorem init_zero_size_succeeds_counterexample :
    (Game.init 0).isSome = true := rfl

/-- C9 (amended): construction fails at creation exactly for negative
sizes (numpy rejects negative dimensions) — size 0 is accepted with a
degenerate empty board; every size ≥ 0, in particular every positive size,
constructs an all-empty board with black to move and zero prisoners. -/
theorem init_fails_iff_negative (size : Int) :
    (size < 0 → Game.init size = none) ∧
    (0 ≤ size → ∃ g : Game, Game.init size = some g ∧
      g.size = size.toNat ∧ (∀ c r : Nat, g.board c r = 0) ∧
      g.black_turn = true ∧ g.prisoners_black = 0 ∧
      g.prisoners_white = 0) := by
  constructor
  · intro h
    unfold Game.init
    rw [if_pos h]
  · intro h
    unfold Game.init
    rw [if_neg (by omega)]
    exact ⟨_, rfl, rfl, fun c r => rfl, rfl, rfl, rfl⟩

/-- C9 witness: size −2 fails, size 19 constructs the fresh game. -/
theorem init_fails_iff_negative_witness :
    ((-2 : Int) < 0 ∧ Game.init (-2) = none) ∧
    ((0 : Int) ≤ 19 ∧ ∃ g : Game, Game.init 19 = some g ∧
      g.size = (19 : Int).toNat ∧ (∀ c r : Nat, g.board c r = 0) ∧
      g.black_turn = true ∧ g.prisoners_black = 0 ∧
      g.prisoners_white = 0) :=
  ⟨⟨by decide, (init_fails_iff_negative (-2)).1 (by decide)⟩,
   ⟨by decide, (init_fails_iff_negative 19).2 (by decide)⟩⟩

/-- C4: `get_stone_groups` partitions exactly the color's cells into
maximal 4-connected groups: the union is exactly the color's cells, the
groups are pairwise disjoint (sharing a cell forces equality), each group
is internally 4-connected, and each group is maximal (closed under
same-color adjacency). -/
theorem get_stone_groups_is_partition (n : Nat) (board : Board)
    (color : Color) :
    (∀ p : Cell, (∃ G ∈ get_stone_groups n board color, p ∈ G) ↔
      (p.1 < n ∧ p.2 < n ∧ board p.1 p.2 = colorCode color)) ∧
    (∀ G ∈ get_stone_groups n board color,
      ∀ H ∈ get_stone_groups n board color,
      ∀ x : Cell, x ∈ G → x ∈ H → G = H) ∧
    (∀ G ∈ get_stone_groups n board color, ∀ x ∈ G, ∀ y ∈ G,
      connWithin G x y) ∧
    (∀ G ∈ get_stone_groups n board color, ∀ x ∈ G, ∀ y : Cell,
      adjacent x y → y.1 < n → y.2 < n → board y.1 y.2 = colorCode color →
      y ∈ G) := by
  refine ⟨?_, ?_, ?_, ?_⟩
  · intro p
    constructor
    · rintro ⟨G, hG, hpG⟩
      exact mem_colorCells.1 (group_subset_colorCells hG hpG)
    · intro h
      exact exists_group_mem (mem_colorCells.2 h)
  · intro G hG H hH x hxG hxH
    exact group_eq_of_mem_mem hG hH hxG hxH
  · intro G hG x hx y hy
    exact group_connWithin hG hx hy
  · intro G hG x hx y hadj h1 h2 h3
    exact group_closed hG hx hadj (mem_colorCells.2 ⟨h1, h2, h3⟩)

/-- C4 witness: the two adjacent black stones of `pairBoard` form one
listed group, internally connected. -/
theorem get_stone_groups_is_partition_witness :
    (groupOf 2 pairBoard 1 (0, 0) ∈ get_stone_groups 2 pairBoard Color.black ∧
      ((0, 0) : Cell) ∈ groupOf 2 pairBoard 1 (0, 0) ∧
      ((0, 1) : Cell) ∈ groupOf 2 pairBoard 1 (0, 0)) ∧
    connWithin (groupOf 2 pairBoard 1 (0, 0)) (0, 0) (0, 1) :=
  ⟨⟨by decide, by decide, by decide⟩,
   (get_stone_groups_is_partition 2 pairBoard Color.black).2.2.1
     (groupOf 2 pairBoard 1 (0, 0)) (by decide) (0, 0) (by decide)
     (0, 1) (by decide)⟩

/-- C7: the side-to-move flag flips exactly once on an accepted move
(click) and is unchanged on a rejected one (zoink); no other transition
exists. -/
theorem turn_flips_iff_accepted (g : Game) (col row : Int) :
    (handle_click g col row).1.black_turn =
      (if (handle_click g col row).2 = Sound.click then !g.black_turn
       else g.black_turn) := by
  cases hv : is_valid_move col row g.size g.board with
  | false =>
      rw [handle_click_invalid hv]
      rw [if_neg (show ¬((g, Sound.zoink).2 = Sound.click) from
        fun h => Sound.noConfusion h)]
  | true =>
      by_cases hcond : (!(captGroups g col row).isEmpty) = false ∧
          has_no_liberties g.size (afterCaptureBoard g col row)
            (ownGroupAt g.size (afterCaptureBoard g col row) (selfColor g)
              col.toNat row.toNat) = true
      · rw [handle_click_valid hv, if_pos hcond]
        rw [if_neg (by decide :
          ¬(Sound.zoink = Sound.click))]
        exact setPrisoners_black_turn g (selfColor g) _
      · rw [handle_click_commit hv hcond]
        rw [if_pos (by decide : Sound.click = Sound.click)]

/-- C8 counterexample: an out-of-bounds rejection and an occupied-cell
rejection from the same state produce literally identical results (state
and sound), so the result reported to the presentation layer carries no
rejection reason distinguishing the conditions. -/
theorem rejection_reason_not_reported_counterexample :
    handle_click occupiedGame (-1) 0 = (occupiedGame, Sound.zoink) ∧
    handle_click occupiedGame 0 0 = (occupiedGame, Sound.zoink) ∧
    handle_click occupiedGame (-1) 0 = handle_click occupiedGame 0 0 ∧
    ((-1 : Int) < 0) ∧
    (0 ≤ (0 : Int) ∧ (0 : Int) < (occupiedGame.size : Int) ∧
      occupiedGame.board 0 0 ≠ 0) :=
  ⟨rfl, rfl, rfl, by decide, by decide, by decide, by decide⟩

/-- C8 (amended): the handler reports a rejection only through the single
undifferentiated zoink signal — played exactly when the move is rejected
(invalid target or capture-less suicide) — and does not report which
condition caused the rejection. -/
theorem rejection_signal_undifferentiated (g : Game) (col row : Int) :
    (handle_click g col row).2 = Sound.zoink ↔
      (is_valid_move col row g.size g.board = false ∨
        (is_valid_move col row g.size g.board = true ∧
          (captGroups g col row).isEmpty = true ∧
          has_no_liberties g.size (afterCaptureBoard g col row)
            (ownGroupAt g.size (afterCaptureBoard g col row) (selfColor g)
              col.toNat row.toNat) = true)) :=
  handle_click_zoink_iff

/-- C2: every rejected move — out-of-bounds, occupied, or capture-less
suicide — leaves the whole game state unchanged and reports the
rejection: the tentative placement is reverted exactly. -/
theorem rejected_move_leaves_state_unchanged (g : Game) (col row : Int)
    (hrej : is_valid_move col row g.size g.board = false ∨
      ((captGroups g col row).isEmpty = true ∧
        has_no_liberties g.size (afterCaptureBoard g col row)
          (ownGroupAt g.size (afterCaptureBoard g col row) (selfColor g)
            col.toNat row.toNat) = true)) :
    handle_click g col row = (g, Sound.zoink) := by
  rcases hrej with h | ⟨hempty, hlib⟩
  · exact handle_click_invalid h
  · cases hv : is_valid_move col row g.size g.board with
    | false => exact handle_click_invalid hv
    | true => exact handle_click_of_suicide hv hempty hlib

/-- C2 witness: the spec's 3×3 suicide scenario — white plays the
surrounded center, and the whole state survives unchanged. -/
theorem rejected_move_leaves_state_unchanged_witness :
    ((captGroups suicideGame 1 1).isEmpty = true ∧
      has_no_liberties suicideGame.size (afterCaptureBoard suicideGame 1 1)
        (ownGroupAt suicideGame.size (afterCaptureBoard suicideGame 1 1)
          (selfColor suicideGame) (1 : Int).toNat (1 : Int).toNat) = true) ∧
    handle_click suicideGame 1 1 = (suicideGame, Sound.zoink) :=
  ⟨⟨by decide, by decide⟩,
   rejected_move_leaves_state_unchanged suicideGame 1 1
     (Or.inr ⟨by decide, by decide⟩)⟩

/-- C1: a placement that captures is accepted (click, turn flipped) even
if the placed group would be suicidal in isolation: every opposing group
with no liberties on the placed board has all its cells emptied, and the
mover's prisoner counter grows by exactly the total size of the captured
groups; the suicide check never runs. -/
theorem capture_takes_priority (g : Game) (col row : Int)
    (hv : is_valid_move col row g.size g.board = true)
    (hcap : ∃ G ∈ oppGroups g col row,
      has_no_liberties g.size (placedBoard g col row) G = true) :
    (handle_click g col row).2 = Sound.click ∧
    (handle_click g col row).1.black_turn = !g.black_turn ∧
    (∀ G ∈ oppGroups g col row,
      has_no_liberties g.size (placedBoard g col row) G = true →
      ∀ p ∈ G, (handle_click g col row).1.board p.1 p.2 = 0) ∧
    prisonersOf (handle_click g col row).1 (selfColor g) =
      prisonersOf g (selfColor g) + captGain g col row := by
  have hne := captGroups_isEmpty_false hcap
  have hcond : ¬((!(captGroups g col row).isEmpty) = false ∧
      has_no_liberties g.size (afterCaptureBoard g col row)
        (ownGroupAt g.size (afterCaptureBoard g col row) (selfColor g)
          col.toNat row.toNat) = true) := by
    rintro ⟨h1, -⟩
    rw [hne] at h1
    exact Bool.noConfusion h1
  rw [handle_click_commit hv hcond]
  refine ⟨rfl, rfl, ?_, ?_⟩
  · intro G hG hnl p hp
    show afterCaptureBoard g col row p.1 p.2 = 0
    exact afterCaptureBoard_mem
      (mem_unionList.2 ⟨G, mem_captGroups_iff.2 ⟨hG, hnl⟩, hp⟩)
  · exact prisonersOf_commit g (selfColor g) _ _ _

/-- C1 witness: black plays (0,1) on `captureGame`, capturing the white
stone at (0,0) although the corner placement alone would have one
liberty granted only by the capture. -/
theorem capture_takes_priority_witness :
    (is_valid_move 0 1 captureGame.size captureGame.board = true) ∧
    ((handle_click captureGame 0 1).2 = Sound.click ∧
      (handle_click captureGame 0 1).1.black_turn = !captureGame.black_turn ∧
      (∀ G ∈ oppGroups captureGame 0 1,
        has_no_liberties captureGame.size (placedBoard captureGame 0 1) G =
          true →
        ∀ p ∈ G, (handle_click captureGame 0 1).1.board p.1 p.2 = 0) ∧
      prisonersOf (handle_click captureGame 0 1).1 (selfColor captureGame) =
        prisonersOf captureGame (selfColor captureGame) +
          captGain captureGame 0 1) :=
  ⟨by decide,
   capture_takes_priority captureGame 0 1 (by decide)
     ⟨groupOf 2 (placedBoard captureGame 0 1) 2 (0, 0), by decide, by decide⟩⟩

/-- C10: an accepted move changes only the placed cell (empty before, the
mover's code after) and the captured cells (opponent's code before, empty
after); every other cell keeps its value. -/
theorem accepted_move_frame (g : Game) (col row : Int)
    (hacc : (handle_click g col row).2 = Sound.click) :
    g.board col.toNat row.toNat = 0 ∧
    (handle_click g col row).1.board col.toNat row.toNat =
      (if g.black_turn then 1 else 2) ∧
    (∀ p ∈ captCells g col row,
      g.board p.1 p.2 = colorCode (otherColor g) ∧
      (handle_click g col row).1.board p.1 p.2 = 0) ∧
    (∀ a b : Nat, ¬(a = col.toNat ∧ b = row.toNat) →
      ((a, b) : Cell) ∉ captCells g col row →
      (handle_click g col row).1.board a b = g.board a b) := by
  cases hv : is_valid_move col row g.size g.board with
  | false =>
      rw [handle_click_invalid hv] at hacc
      exact absurd hacc (fun h => Sound.noConfusion h)
  | true =>
      by_cases hcond : (!(captGroups g col row).isEmpty) = false ∧
          has_no_liberties g.size (afterCaptureBoard g col row)
            (ownGroupAt g.size (afterCaptureBoard g col row) (selfColor g)
              col.toNat row.toNat) = true
      · rw [handle_click_valid hv, if_pos hcond] at hacc
        exact absurd hacc (fun h => Sound.noConfusion h)
      · rw [handle_click_commit hv hcond]
        refine ⟨(is_valid_move_iff.1 hv).2.2.2.2, ?_, ?_, ?_⟩
        · show afterCaptureBoard g col row col.toNat row.toNat = _
          have h1 := afterCaptureBoard_not_mem
            (p := (col.toNat, row.toNat)) (placed_not_in_captCells g col row)
          rw [show afterCaptureBoard g col row col.toNat row.toNat =
              afterCaptureBoard g col row ((col.toNat, row.toNat) : Cell).1
                ((col.toNat, row.toNat) : Cell).2 from rfl, h1]
          exact placedBoard_placed g col row
        · intro p hp
          obtain ⟨x, y⟩ := p
          have hU := captCells_subset hp
          obtain ⟨h1, h2, h3⟩ := mem_colorCells.1 hU
          have hne : ¬(x = col.toNat ∧ y = row.toNat) := by
            rintro ⟨rfl, rfl⟩
            exact placed_not_in_captCells g col row hp
          constructor
          · rw [← placedBoard_other (g := g) hne]
            exact h3
          · show afterCaptureBoard g col row x y = 0
            exact afterCaptureBoard_mem hp
        · intro a b hne hnc
          show afterCaptureBoard g col row a b = g.board a b
          have h1 := afterCaptureBoard_not_mem (p := (a, b)) hnc
          rw [show afterCaptureBoard g col row a b =
              afterCaptureBoard g col row ((a, b) : Cell).1
                ((a, b) : Cell).2 from rfl, h1]
          exact placedBoard_other hne

/-- C10 witness: the capturing move on `captureGame` — the placed cell and
the captured white stone change, nothing else. -/
theorem accepted_move_frame_witness :
    ((handle_click captureGame 0 1).2 = Sound.click) ∧
    (captureGame.board (0 : Int).toNat (1 : Int).toNat = 0 ∧
      (handle_click captureGame 0 1).1.board (0 : Int).toNat
        (1 : Int).toNat = (if captureGame.black_turn then 1 else 2) ∧
      (∀ p ∈ captCells captureGame 0 1,
        captureGame.board p.1 p.2 = colorCode (otherColor captureGame) ∧
        (handle_click captureGame 0 1).1.board p.1 p.2 = 0) ∧
      (∀ a b : Nat, ¬(a = (0 : Int).toNat ∧ b = (1 : Int).toNat) →
        ((a, b) : Cell) ∉ captCells captureGame 0 1 →
        (handle_click captureGame 0 1).1.board a b =
          captureGame.board a b)) :=
  ⟨by decide, accepted_move_frame captureGame 0 1 (by decide)⟩

/-! ### The liberty invariant over reachable states -/

lemma colorCode_ne_zero (color : Color) : colorCode color ≠ 0 := by
  cases color <;> simp [colorCode]

lemma color_cases (g : Game) (color : Color) :
    color = selfColor g ∨ color = otherColor g := by
  cases color <;> cases hb : g.black_turn <;>
    simp [selfColor, otherColor, hb]

lemma bool_eq_false_of_ne_true {b : Bool} (h : ¬ b = true) : b = false := by
  cases b
  · rfl
  · exact absurd rfl h

/-- Shrinking the cell set of a code can only restrict connectivity. -/
lemma conn_mono {n : Nat} {b2 b1 : Board} {code : Nat}
    (h : ∀ q : Cell, q.1 < n → q.2 < n → b2 q.1 q.2 = code →
      b1 q.1 q.2 = code) {p q : Cell}
    (hc : conn n b2 code p q) : conn n b1 code p q := by
  induction hc with
  | refl => exact Relation.ReflTransGen.refl
  | tail _ hstep ih =>
      exact Relation.ReflTransGen.tail ih
        ⟨hstep.1, hstep.2.1, hstep.2.2.1,
          h _ hstep.2.1 hstep.2.2.1 hstep.2.2.2⟩

/-- Boards with the same in-bounds cells of a code have the same
components. -/
lemma groupOf_congr {n : Nat} {b1 b2 : Board} {code : Nat} {p : Cell}
    (hp : p ∈ colorCells n b1 code)
    (hcells : ∀ q : Cell, q.1 < n → q.2 < n →
      (b1 q.1 q.2 = code ↔ b2 q.1 q.2 = code)) :
    groupOf n b1 code p = groupOf n b2 code p := by
  obtain ⟨h1, h2, h3⟩ := mem_colorCells.1 hp
  have hp2 : p ∈ colorCells n b2 code :=
    mem_colorCells.2 ⟨h1, h2, (hcells p h1 h2).1 h3⟩
  ext y
  rw [mem_groupOf hp, mem_groupOf hp2]
  constructor
  · exact conn_mono (fun q hq1 hq2 hq3 => (hcells q hq1 hq2).1 hq3)
  · exact conn_mono (fun q hq1 hq2 hq3 => (hcells q hq1 hq2).2 hq3)

/-- Boards with the same in-bounds cells of a color have the same group
list. -/
lemma get_stone_groups_congr {n : Nat} {b1 b2 : Board} {color : Color}
    (hcells : ∀ q : Cell, q.1 < n → q.2 < n →
      (b1 q.1 q.2 = colorCode color ↔ b2 q.1 q.2 = colorCode color)) :
    get_stone_groups n b1 color = get_stone_groups n b2 color := by
  unfold get_stone_groups
  apply List.filterMap_congr
  intro p hp
  obtain ⟨h1, h2⟩ := mem_allCells.1 hp
  by_cases hc : b1 p.1 p.2 = colorCode color
  · have hc2 : b2 p.1 p.2 = colorCode color := (hcells p h1 h2).1 hc
    have hgrp : groupOf n b1 (colorCode color) p =
        groupOf n b2 (colorCode color) p :=
      groupOf_congr (mem_colorCells.2 ⟨h1, h2, hc⟩) hcells
    have hrep : isRep n b1 (colorCode color) p ↔
        isRep n b2 (colorCode color) p := by
      unfold isRep
      rw [hgrp]
    by_cases hr : isRep n b1 (colorCode color) p
    · rw [if_pos ⟨hc, hr⟩, if_pos ⟨hc2, hrep.1 hr⟩, hgrp]
    · rw [if_neg (fun h => hr h.2), if_neg (fun h => hr (hrep.2 h.2))]
  · have hc2 : ¬ b2 p.1 p.2 = colorCode color :=
      fun h => hc ((hcells p h1 h2).2 h)
    rw [if_neg (fun h => hc h.1), if_neg (fun h => hc2 h.1)]

/-- A path inside a set of cells of one code is a `conn` path. -/
lemma connWithin_conn {n : Nat} {b : Board} {code : Nat} {S : Finset Cell}
    (hS : ∀ z ∈ S, z.1 < n ∧ z.2 < n ∧ b z.1 z.2 = code) {x y : Cell}
    (h : connWithin S x y) : conn n b code x y := by
  induction h with
  | refl => exact Relation.ReflTransGen.refl
  | tail _ hstep ih =>
      obtain ⟨h1, h2, h3⟩ := hS _ hstep.2.2
      exact Relation.ReflTransGen.tail ih ⟨hstep.1, h1, h2, h3⟩

/-- If a board preserves all the zeros of another, it preserves the
existence of a liberty. -/
lemma has_no_liberties_false_mono {n : Nat} {b1 b2 : Board}
    {G : Finset Cell} (h0 : ∀ a b : Nat, b1 a b = 0 → b2 a b = 0)
    (h : has_no_liberties n b1 G = false) :
    has_no_liberties n b2 G = false := by
  unfold has_no_liberties at h ⊢
  rw [decide_eq_false_iff_not] at h ⊢
  intro hall
  apply h
  intro p hp hdisj
  apply hall p hp
  rcases hdisj with ⟨h1, h2⟩ | ⟨h1, h2⟩ | ⟨h1, h2⟩ | ⟨h1, h2⟩
  · exact Or.inl ⟨h1, h0 _ _ h2⟩
  · exact Or.inr (Or.inl ⟨h1, h0 _ _ h2⟩)
  · exact Or.inr (Or.inr (Or.inl ⟨h1, h0 _ _ h2⟩))
  · exact Or.inr (Or.inr (Or.inr ⟨h1, h0 _ _ h2⟩))

/-- One group cell with an adjacent in-bounds empty cell refutes
`has_no_liberties`. -/
lemma has_no_liberties_false_of_lib {n : Nat} {b : Board} {G : Finset Cell}
    {p : Cell} (hp : p ∈ G) (hp1 : p.1 < n) (hp2 : p.2 < n) {e : Cell}
    (hadj : adjacent p e) (he1 : e.1 < n) (he2 : e.2 < n)
    (he0 : b e.1 e.2 = 0) : has_no_liberties n b G = false := by
  unfold has_no_liberties
  rw [decide_eq_false_iff_not]
  intro hall
  exact hall p hp ((cell_liberty_iff hp1 hp2).2 ⟨e, hadj, he1, he2, he0⟩)

/-- A group without `has_no_liberties` has a cell with an adjacent
in-bounds empty cell. -/
lemma exists_lib_of_has_no_liberties_false {n : Nat} {b : Board}
    {G : Finset Cell} (hb : ∀ p ∈ G, p.1 < n ∧ p.2 < n)
    (h : has_no_liberties n b G = false) :
    ∃ p ∈ G, ∃ e : Cell, adjacent p e ∧ e.1 < n ∧ e.2 < n ∧
      b e.1 e.2 = 0 := by
  unfold has_no_liberties at h
  rw [decide_eq_false_iff_not] at h
  rw [Classical.not_forall] at h
  obtain ⟨p, hp⟩ := h
  rw [Classical.not_imp] at hp
  obtain ⟨hpG, hdisj⟩ := hp
  rw [Classical.not_not] at hdisj
  obtain ⟨hp1, hp2⟩ := hb p hpG
  exact ⟨p, hpG, (cell_liberty_iff hp1 hp2).1 hdisj⟩

lemma list_nil_of_isEmpty {α : Type} {l : List α} (h : l.isEmpty = true) :
    l = [] := by
  cases l with
  | nil => rfl
  | cons a t => exact absurd h (by simp)

lemma afterCaptureBoard_of_nil {g : Game} {col row : Int}
    (h : captGroups g col row = []) :
    afterCaptureBoard g col row = placedBoard g col row := by
  unfold afterCaptureBoard captCells
  rw [h]
  exact removeGroup_empty _

lemma afterCaptureBoard_zero_preserved (g : Game) (col row : Int) :
    ∀ a b : Nat, placedBoard g col row a b = 0 →
      afterCaptureBoard g col row a b = 0 := by
  intro a b h
  by_cases hm : ((a, b) : Cell) ∈ captCells g col row
  · exact afterCaptureBoard_mem (p := (a, b)) hm
  · rw [afterCaptureBoard_not_mem (p := (a, b)) hm]
    exact h

lemma board2_oCode_iff (g : Game) (col row : Int) (q : Cell) :
    afterCaptureBoard g col row q.1 q.2 = colorCode (otherColor g) ↔
      (placedBoard g col row q.1 q.2 = colorCode (otherColor g) ∧
        q ∉ captCells g col row) := by
  by_cases hm : q ∈ captCells g col row
  · rw [afterCaptureBoard_mem hm]
    constructor
    · intro h
      exact absurd h.symm (colorCode_ne_zero _)
    · rintro ⟨-, hn⟩
      exact absurd hm hn
  · rw [afterCaptureBoard_not_mem hm]
    exact ⟨fun h => ⟨h, hm⟩, fun h => h.1⟩

lemma board2_sCode_iff (g : Game) (col row : Int) (q : Cell) :
    afterCaptureBoard g col row q.1 q.2 = colorCode (selfColor g) ↔
      placedBoard g col row q.1 q.2 = colorCode (selfColor g) := by
  by_cases hm : q ∈ captCells g col row
  · rw [afterCaptureBoard_mem hm]
    constructor
    · intro h
      exact absurd h.symm (colorCode_ne_zero _)
    · intro h
      have h2 := (mem_colorCells.1 (captCells_subset hm)).2.2
      exact absurd (h.symm.trans h2) (colorCode_self_ne_other g)
  · rw [afterCaptureBoard_not_mem hm]

/-- After a valid move every remaining opposing group still has a liberty:
the capture loop removed exactly the liberty-less ones, and removals only
create empty cells. -/
lemma noDead_other (g : Game) (col row : Int) :
    ∀ G ∈ get_stone_groups g.size (afterCaptureBoard g col row)
      (otherColor g),
      has_no_liberties g.size (afterCaptureBoard g col row) G = false := by
  intro G hG
  obtain ⟨ρ, hρU2, hrep, rfl⟩ := mem_get_stone_groups.1 hG
  obtain ⟨hρ1, hρ2, hρc2⟩ := mem_colorCells.1 hρU2
  have hρmix := (board2_oCode_iff g col row ρ).1 hρc2
  have hρnc : ρ ∉ captCells g col row := hρmix.2
  have hρU1 : ρ ∈ colorCells g.size (placedBoard g col row)
      (colorCode (otherColor g)) :=
    mem_colorCells.2 ⟨hρ1, hρ2, hρmix.1⟩
  obtain ⟨H, hH, hρH⟩ := exists_group_mem hρU1
  have hHnc : H ∉ captGroups g col row := by
    intro hmem
    exact hρnc (mem_unionList.2 ⟨H, hmem, hρH⟩)
  have hHfalse : has_no_liberties g.size (placedBoard g col row) H =
      false := by
    apply bool_eq_false_of_ne_true
    intro htrue
    exact hHnc (mem_captGroups_iff.2 ⟨hH, htrue⟩)
  have hHnc2 : ∀ z ∈ H, z ∉ captCells g col row := by
    intro z hz hzc
    obtain ⟨K, hK, hzK⟩ := mem_unionList.1 hzc
    have hKopp : K ∈ oppGroups g col row := List.mem_of_mem_filter hK
    have heq : H = K := group_eq_of_mem_mem hH hKopp hz hzK
    exact hHnc (heq ▸ hK)
  have hHcells : ∀ z ∈ H, z.1 < g.size ∧ z.2 < g.size ∧
      afterCaptureBoard g col row z.1 z.2 = colorCode (otherColor g) := by
    intro z hz
    obtain ⟨h1, h2, h3⟩ := mem_colorCells.1 (group_subset_colorCells hH hz)
    exact ⟨h1, h2, (board2_oCode_iff g col row z).2 ⟨h3, hHnc2 z hz⟩⟩
  have hρU2' : ρ ∈ colorCells g.size (afterCaptureBoard g col row)
      (colorCode (otherColor g)) := mem_colorCells.2 ⟨hρ1, hρ2, hρc2⟩
  have hHρ : H = groupOf g.size (placedBoard g col row)
      (colorCode (otherColor g)) ρ := group_eq_groupOf_mem hH hρH
  have hGH : groupOf g.size (afterCaptureBoard g col row)
      (colorCode (otherColor g)) ρ = H := by
    ext y
    constructor
    · intro hy
      have hc2 := (mem_groupOf hρU2').1 hy
      have hc1 := conn_mono
        (fun q hq1 hq2 hq3 => ((board2_oCode_iff g col row q).1 hq3).1) hc2
      rw [hHρ]
      exact (mem_groupOf hρU1).2 hc1
    · intro hy
      have hcw : connWithin H ρ y := group_connWithin hH hρH hy
      exact (mem_groupOf hρU2').2 (connWithin_conn hHcells hcw)
  rw [hGH]
  exact has_no_liberties_false_mono
    (afterCaptureBoard_zero_preserved g col row) hHfalse

lemma placed_bounds {g : Game} {col row : Int}
    (hv : is_valid_move col row g.size g.board = true) :
    col.toNat < g.size ∧ row.toNat < g.size := by
  obtain ⟨h1, h2, h3, h4, -⟩ := is_valid_move_iff.1 hv
  omega

lemma placedBoard_placed_sCode (g : Game) (col row : Int) :
    placedBoard g col row col.toNat row.toNat = colorCode (selfColor g) := by
  rw [placedBoard_placed, colorCode_selfColor]

lemma placedBoard_sCode_iff {g : Game} {col row : Int}
    (hv : is_valid_move col row g.size g.board = true) (q : Cell) :
    g.board q.1 q.2 = colorCode (selfColor g) ↔
      (placedBoard g col row q.1 q.2 = colorCode (selfColor g) ∧
        ¬(q.1 = col.toNat ∧ q.2 = row.toNat)) := by
  by_cases hq : q.1 = col.toNat ∧ q.2 = row.toNat
  · obtain ⟨e1, e2⟩ := hq
    constructor
    · intro h
      exfalso
      have h0 := (is_valid_move_iff.1 hv).2.2.2.2
      rw [e1, e2, h0] at h
      exact colorCode_ne_zero _ h.symm
    · rintro ⟨-, hn⟩
      exact absurd ⟨e1, e2⟩ hn
  · rw [placedBoard_other hq]
    exact ⟨fun h => ⟨h, hq⟩, fun h => h.1⟩

lemma placedBoard_oCode_iff {g : Game} {col row : Int}
    (hv : is_valid_move col row g.size g.board = true) (q : Cell) :
    placedBoard g col row q.1 q.2 = colorCode (otherColor g) ↔
      g.board q.1 q.2 = colorCode (otherColor g) := by
  by_cases hq : q.1 = col.toNat ∧ q.2 = row.toNat
  · obtain ⟨e1, e2⟩ := hq
    constructor
    · intro h
      rw [e1, e2, placedBoard_placed, ← colorCode_selfColor] at h
      exact absurd h (colorCode_self_ne_other g)
    · intro h
      exfalso
      have h0 := (is_valid_move_iff.1 hv).2.2.2.2
      rw [e1, e2, h0] at h
      exact colorCode_ne_zero _ h.symm
  · rw [placedBoard_other hq]

/-- The tentative placement does not touch opposing cells, so the opposing
groups of the placed board are those of the original board. -/
lemma oppGroups_eq_pre {g : Game} {col row : Int}
    (hv : is_valid_move col row g.size g.board = true) :
    get_stone_groups g.size (placedBoard g col row) (otherColor g) =
      get_stone_groups g.size g.board (otherColor g) :=
  get_stone_groups_congr (fun q _ _ => placedBoard_oCode_iff hv q)

/-- After an accepted move every remaining own-color group has a liberty:
either it is the placed group (fed by a capture or passing the suicide
check) or an untouched pre-move group whose liberty survives. -/
lemma noDead_self (g : Game) (col row : Int)
    (hv : is_valid_move col row g.size g.board = true)
    (hnd : NoDeadGroups g)
    (hcond : ¬((!(captGroups g col row).isEmpty) = false ∧
      has_no_liberties g.size (afterCaptureBoard g col row)
        (ownGroupAt g.size (afterCaptureBoard g col row) (selfColor g)
          col.toNat row.toNat) = true)) :
    ∀ G ∈ get_stone_groups g.size (afterCaptureBoard g col row)
      (selfColor g),
      has_no_liberties g.size (afterCaptureBoard g col row) G = false := by
  intro G hG
  obtain ⟨hcb, hrb⟩ := placed_bounds hv
  obtain ⟨ρ, hρU2, hrep, rfl⟩ := mem_get_stone_groups.1 hG
  obtain ⟨hρ1, hρ2, hρc2⟩ := mem_colorCells.1 hρU2
  have hρc1 : placedBoard g col row ρ.1 ρ.2 = colorCode (selfColor g) :=
    (board2_sCode_iff g col row ρ).1 hρc2
  have hρU1 : ρ ∈ colorCells g.size (placedBoard g col row)
      (colorCode (selfColor g)) := mem_colorCells.2 ⟨hρ1, hρ2, hρc1⟩
  have hGeq : groupOf g.size (afterCaptureBoard g col row)
      (colorCode (selfColor g)) ρ =
      groupOf g.size (placedBoard g col row) (colorCode (selfColor g)) ρ :=
    groupOf_congr hρU2 (fun q _ _ => board2_sCode_iff g col row q)
  rw [hGeq]
  obtain ⟨T, hT, hρT⟩ := exists_group_mem hρU1
  have hTH : T = groupOf g.size (placedBoard g col row)
      (colorCode (selfColor g)) ρ := group_eq_groupOf_mem hT hρT
  by_cases hplaced : ((col.toNat, row.toNat) : Cell) ∈
      groupOf g.size (placedBoard g col row) (colorCode (selfColor g)) ρ
  · cases hemp : (captGroups g col row).isEmpty with
    | true =>
        have hnil : captGroups g col row = [] := list_nil_of_isEmpty hemp
        have hacb : afterCaptureBoard g col row = placedBoard g col row :=
          afterCaptureBoard_of_nil hnil
        have hA : (!(captGroups g col row).isEmpty) = false := by
          rw [hemp]
          rfl
        have hlib : has_no_liberties g.size (afterCaptureBoard g col row)
            (ownGroupAt g.size (afterCaptureBoard g col row) (selfColor g)
              col.toNat row.toNat) = false :=
          bool_eq_false_of_ne_true (fun hB => hcond ⟨hA, hB⟩)
        rw [hacb] at hlib ⊢
        have hpU : ((col.toNat, row.toNat) : Cell) ∈ colorCells g.size
            (placedBoard g col row) (colorCode (selfColor g)) :=
          mem_colorCells.2 ⟨hcb, hrb, placedBoard_placed_sCode g col row⟩
        obtain ⟨hOwnMem, hpOwn⟩ := ownGroupAt_spec hpU
        have hOwnEq : ownGroupAt g.size (placedBoard g col row)
            (selfColor g) col.toNat row.toNat =
            groupOf g.size (placedBoard g col row)
              (colorCode (selfColor g)) (col.toNat, row.toNat) :=
          group_eq_groupOf_mem hOwnMem hpOwn
        have hρp : groupOf g.size (placedBoard g col row)
            (colorCode (selfColor g)) ρ =
            groupOf g.size (placedBoard g col row)
              (colorCode (selfColor g)) (col.toNat, row.toNat) :=
          groupOf_eq_of_mem hρU1 hplaced
        rw [hρp, ← hOwnEq]
        exact hlib
    | false =>
        obtain ⟨K, hKcapt⟩ : ∃ K, K ∈ captGroups g col row := by
          apply List.exists_mem_of_ne_nil
          intro h
          rw [h] at hemp
          exact absurd hemp (by simp)
        have hKopp : K ∈ oppGroups g col row :=
          List.mem_of_mem_filter hKcapt
        have hKtrue : has_no_liberties g.size (placedBoard g col row) K =
            true := (mem_captGroups_iff.1 hKcapt).2
        have hKpre : K ∈ get_stone_groups g.size g.board (otherColor g) := by
          rw [← oppGroups_eq_pre hv]
          exact hKopp
        have hKfalse := hnd (otherColor g) K hKpre
        have hKbounds : ∀ p ∈ K, p.1 < g.size ∧ p.2 < g.size := by
          intro p hp
          have h := mem_colorCells.1 (group_subset_colorCells hKpre hp)
          exact ⟨h.1, h.2.1⟩
        obtain ⟨k, hkK, e, hke, he1, he2, he0⟩ :=
          exists_lib_of_has_no_liberties_false hKbounds hKfalse
        obtain ⟨hk1, hk2⟩ := hKbounds k hkK
        obtain ⟨ex, ey⟩ := e
        have he_eq : ex = col.toNat ∧ ey = row.toNat := by
          by_contra hne
          have hb1e : placedBoard g col row ex ey = 0 := by
            rw [placedBoard_other hne]
            exact he0
          have hdisj := (cell_liberty_iff hk1 hk2).2
            ⟨(ex, ey), hke, he1, he2, hb1e⟩
          unfold has_no_liberties at hKtrue
          rw [decide_eq_true_eq] at hKtrue
          exact hKtrue k hkK hdisj
        obtain ⟨rfl, rfl⟩ := he_eq
        have hkcapt : k ∈ captCells g col row :=
          mem_unionList.2 ⟨K, hKcapt, hkK⟩
        have hk0 : afterCaptureBoard g col row k.1 k.2 = 0 :=
          afterCaptureBoard_mem hkcapt
        exact has_no_liberties_false_of_lib hplaced hcb hrb
          (adjacent_symm hke) hk1 hk2 hk0
  · have hcellsg : ∀ z ∈ groupOf g.size (placedBoard g col row)
        (colorCode (selfColor g)) ρ,
        z.1 < g.size ∧ z.2 < g.size ∧
          g.board z.1 z.2 = colorCode (selfColor g) := by
      intro z hz
      obtain ⟨h1, h2, h3⟩ := mem_colorCells.1
        (groupOf_subset_colorCells hρU1 hz)
      refine ⟨h1, h2, (placedBoard_sCode_iff hv z).2 ⟨h3, ?_⟩⟩
      rintro ⟨e1, e2⟩
      apply hplaced
      have hzeq : z = ((col.toNat, row.toNat) : Cell) := Prod.ext e1 e2
      rw [← hzeq]
      exact hz
    have hρU0 : ρ ∈ colorCells g.size g.board
        (colorCode (selfColor g)) := by
      obtain ⟨-, -, h3⟩ := hcellsg ρ (mem_groupOf_self ρ)
      exact mem_colorCells.2 ⟨hρ1, hρ2, h3⟩
    have hH0 : groupOf g.size (placedBoard g col row)
        (colorCode (selfColor g)) ρ =
        groupOf g.size g.board (colorCode (selfColor g)) ρ := by
      ext y
      constructor
      · intro hy
        have hyT : y ∈ T := by rw [hTH]; exact hy
        have hcwT : connWithin T ρ y := group_connWithin hT hρT hyT
        have hTcells : ∀ z ∈ T, z.1 < g.size ∧ z.2 < g.size ∧
            g.board z.1 z.2 = colorCode (selfColor g) := by
          intro z hz
          apply hcellsg
          rw [← hTH]
          exact hz
        exact (mem_groupOf hρU0).2 (connWithin_conn hTcells hcwT)
      · intro hy
        have hc0 := (mem_groupOf hρU0).1 hy
        have hc1 := conn_mono
          (fun q hq1 hq2 hq3 =>
            ((placedBoard_sCode_iff hv q).1 hq3).1) hc0
        exact (mem_groupOf hρU1).2 hc1
    obtain ⟨T0, hT0, hρT0⟩ := exists_group_mem hρU0
    have hT0eq : T0 = groupOf g.size g.board (colorCode (selfColor g)) ρ :=
      group_eq_groupOf_mem hT0 hρT0
    have hH1false : has_no_liberties g.size g.board
        (groupOf g.size (placedBoard g col row)
          (colorCode (selfColor g)) ρ) = false := by
      rw [hH0, ← hT0eq]
      exact hnd (selfColor g) T0 hT0
    have hbounds1 : ∀ p ∈ groupOf g.size (placedBoard g col row)
        (colorCode (selfColor g)) ρ, p.1 < g.size ∧ p.2 < g.size := by
      intro p hp
      obtain ⟨h1, h2, -⟩ := hcellsg p hp
      exact ⟨h1, h2⟩
    obtain ⟨y, hyH, e, hye, he1, he2, he0⟩ :=
      exists_lib_of_has_no_liberties_false hbounds1 hH1false
    obtain ⟨ex, ey⟩ := e
    have hne : ¬(ex = col.toNat ∧ ey = row.toNat) := by
      rintro ⟨rfl, rfl⟩
      apply hplaced
      exact groupOf_closed hρU1 hyH
        ⟨hye, hcb, hrb, placedBoard_placed_sCode g col row⟩
    have hb1e : placedBoard g col row ex ey = 0 := by
      rw [placedBoard_other hne]
      exact he0
    have hb2e : afterCaptureBoard g col row ex ey = 0 :=
      afterCaptureBoard_zero_preserved g col row ex ey hb1e
    obtain ⟨hy1, hy2⟩ := hbounds1 y hyH
    exact has_no_liberties_false_of_lib hyH hy1 hy2 hye he1 he2 hb2e

lemma commit_size (g : Game) (c : Color) (v : Nat) (B : Board) (t : Bool) :
    ({ setPrisoners g c v with board := B, black_turn := t } : Game).size =
      g.size := by
  cases c <;> rfl

lemma commit_CellValuesOK (g : Game) (col row : Int) (v : Nat) (t : Bool)
    (hvals : CellValuesOK g) :
    CellValuesOK { setPrisoners g (selfColor g) v with
      board := afterCaptureBoard g col row, black_turn := t } := by
  intro a b ha hb
  rw [commit_size] at ha hb
  show afterCaptureBoard g col row a b = 0 ∨
    afterCaptureBoard g col row a b = 1 ∨
    afterCaptureBoard g col row a b = 2
  by_cases hm : ((a, b) : Cell) ∈ captCells g col row
  · exact Or.inl (afterCaptureBoard_mem hm)
  · rw [afterCaptureBoard_not_mem (p := (a, b)) hm]
    by_cases hp : a = col.toNat ∧ b = row.toNat
    · unfold placedBoard updateBoard
      rw [if_pos hp]
      cases hbt : g.black_turn
      · exact Or.inr (Or.inr rfl)
      · exact Or.inr (Or.inl rfl)
    · rw [placedBoard_other hp]
      exact hvals a b ha hb

lemma commit_NoDeadGroups (g : Game) (col row : Int) (v : Nat)
    (hv : is_valid_move col row g.size g.board = true)
    (hnd : NoDeadGroups g)
    (hcond : ¬((!(captGroups g col row).isEmpty) = false ∧
      has_no_liberties g.size (afterCaptureBoard g col row)
        (ownGroupAt g.size (afterCaptureBoard g col row) (selfColor g)
          col.toNat row.toNat) = true)) :
    NoDeadGroups { setPrisoners g (selfColor g) v with
      board := afterCaptureBoard g col row, black_turn := !g.black_turn } := by
  intro color G hG
  rw [commit_size] at hG ⊢
  have hG' : G ∈ get_stone_groups g.size (afterCaptureBoard g col row)
      color := hG
  show has_no_liberties g.size (afterCaptureBoard g col row) G = false
  rcases color_cases g color with rfl | rfl
  · exact noDead_self g col row hv hnd hcond G hG'
  · exact noDead_other g col row G hG'

lemma step_preserves (g : Game) (col row : Int)
    (hvals : CellValuesOK g) (hnd : NoDeadGroups g) :
    CellValuesOK (handle_click g col row).1 ∧
      NoDeadGroups (handle_click g col row).1 := by
  cases hs : (handle_click g col row).2 with
  | zoink =>
      rw [handle_click_rejected_state hs]
      exact ⟨hvals, hnd⟩
  | click =>
      cases hv : is_valid_move col row g.size g.board with
      | false =>
          rw [handle_click_invalid hv] at hs
          exact absurd hs (fun h => Sound.noConfusion h)
      | true =>
          by_cases hcond : (!(captGroups g col row).isEmpty) = false ∧
              has_no_liberties g.size (afterCaptureBoard g col row)
                (ownGroupAt g.size (afterCaptureBoard g col row)
                  (selfColor g) col.toNat row.toNat) = true
          · rw [handle_click_valid hv, if_pos hcond] at hs
            exact absurd hs (fun h => Sound.noConfusion h)
          · rw [handle_click_commit hv hcond]
            exact ⟨commit_CellValuesOK g col row _ _ hvals,
              commit_NoDeadGroups g col row _ hv hnd hcond⟩

lemma init_invariant (size : Int) (g : Game)
    (h : Game.init size = some g) : CellValuesOK g ∧ NoDeadGroups g := by
  unfold Game.init at h
  by_cases hs : size < 0
  · rw [if_pos hs] at h
    exact absurd h (by simp)
  · rw [if_neg hs] at h
    have hg := Option.some_inj.1 h
    subst hg
    constructor
    · intro a b ha hb
      exact Or.inl rfl
    · intro color G hG
      exfalso
      obtain ⟨p, hpU, -, -⟩ := mem_get_stone_groups.1 hG
      have h0 := (mem_colorCells.1 hpU).2.2
      exact colorCode_ne_zero color h0.symm

/-- C3: every reachable game state — freshly constructed or produced by
any sequence of clicks — has only the three cell codes on the board, and
every remaining group has at least one liberty: a zero-liberty group never
persists between moves. -/
theorem reachable_no_dead_groups (g : Game) (h : Reachable g) :
    CellValuesOK g ∧ NoDeadGroups g := by
  induction h with
  | init size g0 hinit => exact init_invariant size g0 hinit
  | step g0 col row _ ih => exact step_preserves g0 col row ih.1 ih.2

/-- C3 witness: the state after one concrete click on the fresh game is
reachable and satisfies the liberty invariant. -/
theorem reachable_no_dead_groups_witness :
    Reachable (handle_click freshGame 0 0).1 ∧
      (CellValuesOK (handle_click freshGame 0 0).1 ∧
        NoDeadGroups (handle_click freshGame 0 0).1) :=
  have hr : Reachable (handle_click freshGame 0 0).1 :=
    Reachable.step freshGame 0 0 (Reachable.init 2 freshGame rfl)
  ⟨hr, reachable_no_dead_groups _ hr⟩
